import Mathlib

set_option maxRecDepth 8192
set_option maxHeartbeats 1000000

/-!
# Verification of the AES-XTS x86_64 assembly implementation

This file gives a shallow embedding, in Lean 4, of the AES-XTS
encryption/decryption routine found in `aes-xts-avx-x86_64.S` (the
`aesni_avx` instantiation: `VL = 16`, `USE_AVX10 = 0`, i.e. one AES
block per vector register), together with the macros it is built from
(`_next_tweak`, `_next_tweakvec`, `_tweak_step_pclmul`, `_xor3`,
`_aes_crypt`, `_aes_xts_crypt`), and proves the correctness and
structural properties stated about it.

Machine values are embedded as natural numbers: bytes are `Nat` values
below 256, 128-bit registers holding XTS tweaks are `Nat` values below
`2 ^ 128` (little-endian, as the x86 `vmovdqu` load/store order), and
AES states are functions `Fin 16 → Nat` (byte `i` of the 128-bit
register).  The semantics of the x86 SIMD instructions used by the
source (`vpaddq`, `vpsrad`, `vpshufd`, `vpsrlq`, `vpsllq`, `vpslldq`,
`vpsrldq`, `vpclmulqdq`, `vpshufb`, `vpblendvb`, `vpternlogd`,
`vaesenc`/`vaesdec`[`last`]) are spelled out on these representations;
the AES round instructions are modelled by the AES round functions
they are architecturally defined to compute (SubBytes, ShiftRows,
MixColumns and their inverses).
-/

namespace AesXts

/-! ## Bits, bytes, and 64/128-bit lanes -/

/-- Bits of `x + 2^n * y` when `x < 2^n`: the low `n` bits come from
`x`, the remaining bits from `y`. -/
theorem testBit_add_two_pow_mul (n x y : Nat) (hx : x < 2 ^ n) (i : Nat) :
    (x + 2 ^ n * y).testBit i = if i < n then x.testBit i else y.testBit (i - n) := by
  by_cases h : i < n
  · simp only [h, if_true]
    have h1 : (x + 2 ^ n * y) / 2 ^ i % 2 = x / 2 ^ i % 2 := by
      have hn : (2 : Nat) ^ n = 2 ^ i * (2 * 2 ^ (n - i - 1)) := by
        have h1 : (2 : Nat) ^ i * (2 * 2 ^ (n - i - 1)) = 2 ^ (i + 1 + (n - i - 1)) := by
          rw [Nat.pow_add, Nat.pow_succ, Nat.mul_assoc]
        rw [h1]
        congr 1
        omega
      rw [hn, Nat.mul_assoc, Nat.add_mul_div_left _ _ (Nat.pos_pow_of_pos i (by norm_num)),
        Nat.mul_assoc, Nat.add_mul_mod_self_left]
    rw [Nat.testBit_to_div_mod, Nat.testBit_to_div_mod, h1]
  · simp only [h, if_false]
    have h1 : (x + 2 ^ n * y) / 2 ^ i = y / 2 ^ (i - n) := by
      have hin : (2 : Nat) ^ i = 2 ^ n * 2 ^ (i - n) := by
        rw [← Nat.pow_add]
        congr 1
        omega
      rw [hin, ← Nat.div_div_eq_div_mul,
        Nat.add_mul_div_left _ _ (Nat.pos_pow_of_pos n (by norm_num)),
        Nat.div_eq_of_lt hx, Nat.zero_add]
    rw [Nat.testBit_to_div_mod, Nat.testBit_to_div_mod, h1]

/-- Split an XOR of two 128-bit-style values into low/high parts:
XOR acts independently on the two summands of `a + 2^n * b` when the
low parts are below `2^n`. -/
theorem xor_split (n a b c d : Nat) (ha : a < 2 ^ n) (hc : c < 2 ^ n) :
    (a + 2 ^ n * b) ^^^ (c + 2 ^ n * d) = (a ^^^ c) + 2 ^ n * (b ^^^ d) := by
  have hxc : a ^^^ c < 2 ^ n := Nat.xor_lt_two_pow ha hc
  apply Nat.eq_of_testBit_eq
  intro i
  rw [Nat.testBit_xor, testBit_add_two_pow_mul n a b ha i, testBit_add_two_pow_mul n c d hc i,
    testBit_add_two_pow_mul n (a ^^^ c) (b ^^^ d) hxc i]
  by_cases h : i < n <;> simp [h, Nat.testBit_xor]

/-- Reduction mod `2^n` distributes over XOR (both are bitwise truncation). -/
theorem mod_two_pow_xor (n a b : Nat) :
    (a ^^^ b) % 2 ^ n = a % 2 ^ n ^^^ b % 2 ^ n := by
  apply Nat.eq_of_testBit_eq
  intro i
  simp only [Nat.testBit_mod_two_pow, Nat.testBit_xor]
  by_cases h : i < n <;> simp [h]

/-- Left shift by one distributes over XOR. -/
theorem two_mul_xor (a b : Nat) : 2 * (a ^^^ b) = 2 * a ^^^ 2 * b := by
  have h2 : ∀ x : Nat, 2 * x / 2 = x := fun x => by omega
  apply Nat.eq_of_testBit_eq
  intro i
  rcases i with _ | i
  · simp only [Nat.testBit_zero, Nat.testBit_xor, Nat.mul_mod_right]
    simp
  · rw [Nat.testBit_xor, Nat.testBit_add_one, Nat.testBit_add_one, Nat.testBit_add_one,
      h2, h2, h2, Nat.testBit_xor]

/-- XOR with 1 of an even number is the successor. -/
theorem two_mul_xor_one (k : Nat) : 2 * k ^^^ 1 = 2 * k + 1 := by
  have h1 : ∀ x : Nat, (2 * x + 1) / 2 = x := fun x => by omega
  have h2 : ∀ x : Nat, 2 * x / 2 = x := fun x => by omega
  apply Nat.eq_of_testBit_eq
  intro i
  rcases i with _ | i
  · simp only [Nat.testBit_zero, Nat.testBit_xor, Nat.mul_mod_right]
    have : (2 * k + 1) % 2 = 1 := by omega
    simp [this]
  · rw [Nat.testBit_xor, Nat.testBit_add_one, Nat.testBit_add_one, Nat.testBit_add_one,
      h2, h1]
    norm_num

/-! ## The tweak generator: `_next_tweak`

The source computes the next XTS tweak from a 128-bit tweak register
with the sequence

```
vpshufd  $0x13, src, tmp
vpaddq   src, src, dst
vpsrad   $31, tmp, tmp
vpand    GF_POLY_XMM, tmp, tmp
vpxor    tmp, dst, dst
```

against the constant `.Lgf_poly = {.quad 0x87, 1}`.  On the
little-endian `Nat` representation of the 128-bit register this is the
function `nextTweak` below: `vpaddq` doubles each 64-bit lane mod
`2^64`; `vpshufd $0x13` places dword 3 (bits 96..127) in dword 0 and
dword 1 (bits 32..63) in dword 2, so after `vpsrad $31` and the `vpand`
with `{0x87, 1}`, the mask contributes `0x87` to the low lane when
bit 127 of the source is set and `1` to the high lane when bit 63 is
set. -/

/-- Embedding of the `_next_tweak` instruction sequence: value of `dst`
in terms of the 128-bit source register `t` (little-endian `Nat`). -/
def nextTweak (t : Nat) : Nat :=
  let lo := t % 2 ^ 64
  let hi := t / 2 ^ 64
  let dstLo := 2 * lo % 2 ^ 64
  let dstHi := 2 * hi % 2 ^ 64
  let maskLo := if t.testBit 127 then 0x87 else 0
  let maskHi := if t.testBit 63 then 1 else 0
  (dstLo ^^^ maskLo) + 2 ^ 64 * (dstHi ^^^ maskHi)

/-- The mathematical single-tweak step stated by the specification:
left-shift the whole 128-bit value by one bit; if a 1 bit was carried
out of the top bit, XOR the reduction constant `0x87` into the low
byte. -/
def nextTweakSpec (t : Nat) : Nat :=
  (2 * t) % 2 ^ 128 ^^^ (if t.testBit 127 then 0x87 else 0)

/-- Decompose a 128-bit value `mod 2^128` into 64-bit lanes. -/
theorem mod_two_pow_128_split (a b : Nat) (ha : a < 2 ^ 64) :
    (a + 2 ^ 64 * b) % 2 ^ 128 = a + 2 ^ 64 * (b % 2 ^ 64) := by
  have h128 : (2 : Nat) ^ 128 = 2 ^ 64 * 2 ^ 64 := by norm_num
  rw [h128, Nat.mod_mul]
  have h1 : (a + 2 ^ 64 * b) % 2 ^ 64 = a := by
    rw [Nat.add_mul_mod_self_left, Nat.mod_eq_of_lt ha]
  have h2 : (a + 2 ^ 64 * b) / 2 ^ 64 = b := by
    rw [Nat.add_mul_div_left _ _ (by norm_num : (0:Nat) < 2 ^ 64),
      Nat.div_eq_of_lt ha, Nat.zero_add]
  rw [h1, h2]

theorem nextTweak_lt (t : Nat) : nextTweak t < 2 ^ 128 := by
  unfold nextTweak
  have h1 : 2 * (t % 2 ^ 64) % 2 ^ 64 ^^^ (if t.testBit 127 then 0x87 else 0) < 2 ^ 64 := by
    apply Nat.xor_lt_two_pow (Nat.mod_lt _ (by norm_num))
    split <;> norm_num
  have h2 : 2 * (t / 2 ^ 64) % 2 ^ 64 ^^^ (if t.testBit 63 then 1 else 0) < 2 ^ 64 := by
    apply Nat.xor_lt_two_pow (Nat.mod_lt _ (by norm_num))
    split <;> norm_num
  calc _ < 2 ^ 64 + 2 ^ 64 * (2 ^ 64 - 1) := by
        apply Nat.add_lt_add_of_lt_of_le h1
        exact Nat.mul_le_mul_left _ (by omega)
    _ = 2 ^ 128 := by norm_num

/-- Helper: the carry out of the doubled low 64-bit lane is bit 63 of `t`. -/
theorem low_lane_carry (t : Nat) :
    2 * (t % 2 ^ 64) / 2 ^ 64 = if t.testBit 63 then 1 else 0 := by
  have h2 : t % 2 ^ 64 / 2 ^ 63 = t / 2 ^ 63 % 2 := by
    have h64 : (2 : Nat) ^ 64 = 2 ^ 63 * 2 := by norm_num
    rw [h64, Nat.mod_mul_right_div_self]
  have h1 : 2 * (t % 2 ^ 64) / 2 ^ 64 = t % 2 ^ 64 / 2 ^ 63 := by omega
  rw [h1, h2, Nat.testBit_to_div_mod]
  simp only [decide_eq_true_eq]
  split <;> omega

/-- **C2.** For every 128-bit tweak `t`, the `_next_tweak` instruction
sequence (`vpshufd`/`vpaddq`/`vpsrad`/`vpand`/`vpxor` against the
`.Lgf_poly` constant pair `{0x87, 1}`, performing per-64-bit-lane
arithmetic with an explicit internal-carry lane) computes exactly the
GF(2^128) product `t · x`: the whole 128-bit value shifted left by one
bit, with the reduction constant `0x87` XOR'd into the low byte when a
1 bit was carried out of the top bit.  The internal carry from bit 63
into bit 64 is realized by the `{.., 1}` half of the constant. -/
theorem next_tweak_correct (t : Nat) :
    nextTweak t = nextTweakSpec t := by
  unfold nextTweak nextTweakSpec
  have hc := low_lane_carry t
  set c : Nat := if t.testBit 63 then 1 else 0 with hcdef
  set m87 : Nat := if t.testBit 127 then 0x87 else 0 with hmdef
  have hm87_lt : m87 < 2 ^ 64 := by rw [hmdef]; split <;> norm_num
  have hlo_lt : 2 * (t % 2 ^ 64) % 2 ^ 64 < 2 ^ 64 := Nat.mod_lt _ (by norm_num)
  have h2t : 2 * t = 2 * (t % 2 ^ 64) % 2 ^ 64 + 2 ^ 64 * (2 * (t / 2 ^ 64) + c) := by
    omega
  have hsum : 2 * t % 2 ^ 128 =
      2 * (t % 2 ^ 64) % 2 ^ 64 + 2 ^ 64 * ((2 * (t / 2 ^ 64) + c) % 2 ^ 64) := by
    rw [h2t, mod_two_pow_128_split _ _ hlo_lt]
  have hm87' : m87 = m87 + 2 ^ 64 * 0 := by ring
  have hhigh : 2 * (t / 2 ^ 64) % 2 ^ 64 ^^^ c = (2 * (t / 2 ^ 64) + c) % 2 ^ 64 := by
    have hmm : 2 * (t / 2 ^ 64) % 2 ^ 64 = 2 * (t / 2 ^ 64 % 2 ^ 63) := by omega
    rcases htb : t.testBit 63 with h | h
    · simp only [hcdef, htb]
      simp only [Bool.false_eq_true, if_false, Nat.xor_zero]
      omega
    · simp only [hcdef, htb, if_true]
      rw [hmm, two_mul_xor_one]
      omega
  rw [hsum, hm87', xor_split 64 _ _ _ _ hlo_lt hm87_lt]
  simp only [Nat.xor_zero]
  rw [← hhigh]
  simp

/-! ## Batched tweak computation: `_next_tweakvec` and `_tweak_step_pclmul`

For `VL > 16` the source advances tweaks by `x^n` (for `n = VL/16`
lanes, and `n = 4*VL/16` in the interleaved `_tweak_step_pclmul`
variant) using `vpclmulqdq` (carry-less multiplication) against the
low half `0x87` of `.Lgf_poly`, instead of `n` serial `_next_tweak`
steps. -/

/-- Carry-less (GF(2)[x]) multiplication of two natural numbers viewed
as polynomial bit-vectors — the operation computed by `vpclmulqdq` on
a pair of 64-bit sources. -/
def clmul (x y : Nat) : Nat :=
  if x = 0 then 0
  else (if x % 2 = 1 then y else 0) ^^^ 2 * clmul (x / 2) y
termination_by x
decreasing_by exact Nat.div_lt_self (Nat.pos_of_ne_zero (by assumption)) (by norm_num)

theorem clmul_zero (y : Nat) : clmul 0 y = 0 := by
  unfold clmul
  simp

/-- Defining equation of `clmul` on the low bit of the multiplier. -/
theorem clmul_two_mul_add (a b y : Nat) (hb : b < 2) :
    clmul (2 * a + b) y = (if b = 1 then y else 0) ^^^ 2 * clmul a y := by
  by_cases h0 : 2 * a + b = 0
  · have ha : a = 0 := by omega
    have hbz : b = 0 := by omega
    rw [h0, clmul_zero, ha, hbz, clmul_zero]
    simp
  · rw [clmul]
    simp only [h0, if_false]
    have h1 : (2 * a + b) % 2 = b := by omega
    have h2 : (2 * a + b) / 2 = a := by omega
    rw [h1, h2]

/-- Size bound: the carry-less product of an `m`-bit and an `n`-bit
value fits in `m + n` bits. -/
theorem clmul_lt (m n x y : Nat) (hx : x < 2 ^ m) (hy : y < 2 ^ n) :
    clmul x y < 2 ^ (m + n) := by
  induction m generalizing x with
  | zero =>
    have : x = 0 := by omega
    rw [this, clmul_zero]
    exact Nat.pos_pow_of_pos _ (by norm_num)
  | succ m ih =>
    have hx2 : x / 2 < 2 ^ m := by omega
    have hrec := ih (x / 2) hx2
    have hxeq : x = 2 * (x / 2) + x % 2 := by omega
    rw [hxeq, clmul_two_mul_add _ _ _ (Nat.mod_lt _ (by norm_num))]
    apply Nat.xor_lt_two_pow
    · have hy' : y < 2 ^ (m + 1 + n) := by
        calc y < 2 ^ n := hy
          _ ≤ 2 ^ (m + 1 + n) := Nat.pow_le_pow_right (by norm_num) (by omega)
      split <;> [exact hy'; exact Nat.pos_pow_of_pos _ (by norm_num)]
    · have : (2 : Nat) ^ (m + 1 + n) = 2 * 2 ^ (m + n) := by
        rw [← Nat.pow_succ']
        congr 1
        omega
      omega

/-- The closed form computed by the carry-less-multiplication method
for a batched advance by `x^n`: shift the 128-bit value left by `n`
and XOR in the carry-less product of the `n` shifted-out bits with
`0x87`. -/
def batchedAdvance (n t : Nat) : Nat :=
  (t <<< n) % 2 ^ 128 ^^^ clmul (t >>> (128 - n)) 0x87

/-- Embedding of the `VL > 16` branch of `_next_tweakvec`, per
128-bit lane, for an advance by `x^n` (the source instantiates
`n = VL/16`):

```
vpsrlq   $64 - n, src, tmp1        // per 64-bit lane
vpclmulqdq $0x01, GF_POLY, tmp1, tmp2  // high qword of tmp1 times 0x87
vpslldq  $8, tmp1, tmp1            // move low qword to high qword
vpsllq   $n, src, dst              // per 64-bit lane
_xor3    tmp1, tmp2, dst
```
-/
def nextTweakVec (n t : Nat) : Nat :=
  let lo := t % 2 ^ 64
  let hi := t / 2 ^ 64
  let tmp1lo := lo >>> (64 - n)
  let tmp1hi := hi >>> (64 - n)
  let tmp2 := clmul tmp1hi 0x87
  let tmp1' := 2 ^ 64 * tmp1lo
  let dst := (lo <<< n) % 2 ^ 64 + 2 ^ 64 * ((hi <<< n) % 2 ^ 64)
  tmp1' ^^^ tmp2 ^^^ dst

/-- Embedding of the completed `_tweak_step_pclmul` sequence (steps
2..16 then 1000), per 128-bit lane, for an advance by `x^n` with `n` a
multiple of 8 (the source instantiates `n = 4*VL/16`):

```
vpsrldq    $(128 - n) / 8, TWEAK, NEXT_TWEAK   // 128-bit-wide byte shift
vpclmulqdq $0x00, GF_POLY, NEXT_TWEAK, NEXT_TWEAK  // low qwords
...
vpslldq    $n / 8, TWEAK, TWEAK
_vpxor     NEXT_TWEAK, TWEAK, TWEAK
```
-/
def tweakStepPclmul (n t : Nat) : Nat :=
  let next := t >>> (128 - n)
  let next' := clmul (next % 2 ^ 64) 0x87
  (t <<< n) % 2 ^ 128 ^^^ next'

theorem shiftRight_lt_pow (t m n : Nat) (ht : t < 2 ^ m) (h : n ≤ m) :
    t >>> (m - n) < 2 ^ n := by
  rw [Nat.shiftRight_eq_div_pow]
  apply Nat.div_lt_of_lt_mul
  calc t < 2 ^ m := ht
    _ = 2 ^ (m - n) * 2 ^ n := by rw [← Nat.pow_add]; congr 1; omega

/-- One-step unfolding of the batched formula: advancing by `x^(n+1)`
is a single `x` step after advancing by `x^n`. -/
theorem batchedAdvance_succ (n t : Nat) (hn : n ≤ 15) (ht : t < 2 ^ 128) :
    batchedAdvance (n + 1) t = nextTweakSpec (batchedAdvance n t) := by
  unfold batchedAdvance nextTweakSpec
  set S : Nat := (t <<< n) % 2 ^ 128 with hSdef
  set R : Nat := clmul (t >>> (128 - n)) 0x87 with hRdef
  have htshift : t >>> (128 - n) < 2 ^ n := shiftRight_lt_pow t 128 n ht (by omega)
  have hR_lt : R < 2 ^ (n + 8) := clmul_lt n 8 _ _ htshift (by norm_num)
  have hR_small : R < 2 ^ 127 := by
    calc R < 2 ^ (n + 8) := hR_lt
      _ ≤ 2 ^ 127 := Nat.pow_le_pow_right (by norm_num) (by omega)
  -- bit 127 of S ^^^ R is bit 127 - n of t
  have hbit : (S ^^^ R).testBit 127 = t.testBit (127 - n) := by
    rw [Nat.testBit_xor, hSdef, Nat.testBit_mod_two_pow]
    have h1 : (t <<< n).testBit 127 = t.testBit (127 - n) := by
      rw [Nat.testBit_shiftLeft]
      have : (127 ≥ n) := by omega
      simp [this]
    have h2 : R.testBit 127 = false := Nat.testBit_lt_two_pow hR_small
    simp [h1, h2]
  -- decompose the shifted-out bits for the (n+1)-advance
  have hdecomp : t >>> (128 - (n + 1)) = 2 * (t >>> (128 - n)) + (t >>> (127 - n)) % 2 := by
    have h1 : 128 - n = (127 - n) + 1 := by omega
    have h2 : t >>> ((127 - n) + 1) = t >>> (127 - n) / 2 := Nat.shiftRight_succ t _
    have h3 : 128 - (n + 1) = 127 - n := by omega
    rw [h3, h1, h2]
    omega
  have hmod2 : (t >>> (127 - n)) % 2 = if t.testBit (127 - n) then 1 else 0 := by
    rw [Nat.testBit_to_div_mod, Nat.shiftRight_eq_div_pow]
    simp only [decide_eq_true_eq]
    split <;> omega
  have hclstep : clmul (t >>> (128 - (n + 1))) 0x87 =
      (if t.testBit (127 - n) then 0x87 else 0) ^^^ 2 * R := by
    rw [hdecomp, clmul_two_mul_add _ _ _ (Nat.mod_lt _ (by norm_num)), hmod2, hRdef]
    split <;> simp
  -- the doubled shift
  have hshift : 2 * S % 2 ^ 128 = (t <<< (n + 1)) % 2 ^ 128 := by
    rw [hSdef]
    have h1 : (2 * ((t <<< n) % 2 ^ 128)) % 2 ^ 128 = (2 * (t <<< n)) % 2 ^ 128 := by
      generalize t <<< n = X
      omega
    have h2 : 2 * (t <<< n) = t <<< (n + 1) := by
      rw [Nat.shiftLeft_eq, Nat.shiftLeft_eq, Nat.pow_succ]
      ring
    rw [h1, h2]
  have h2R : 2 * R % 2 ^ 128 = 2 * R := by
    apply Nat.mod_eq_of_lt
    calc 2 * R < 2 * 2 ^ 127 := by omega
      _ = 2 ^ 128 := by rw [← Nat.pow_succ']
  rw [hclstep, hbit, two_mul_xor, mod_two_pow_xor, hshift, h2R]
  rw [Nat.xor_assoc]
  congr 1
  rw [Nat.xor_comm]

/-- The batched formula equals `n` serial steps of the mathematical
single-tweak function. -/
theorem batchedAdvance_eq_iterate (n t : Nat) (hn : n ≤ 16) (ht : t < 2 ^ 128) :
    batchedAdvance n t = nextTweakSpec^[n] t := by
  induction n with
  | zero =>
    unfold batchedAdvance
    have h1 : t >>> 128 = 0 := by
      rw [Nat.shiftRight_eq_div_pow]
      exact Nat.div_eq_of_lt ht
    rw [Nat.shiftLeft_zero, Nat.mod_eq_of_lt ht, h1, clmul_zero]
    simp
  | succ n ih =>
    rw [batchedAdvance_succ n t (by omega) ht, ih (by omega), Function.iterate_succ_apply']

/-- The per-lane `vpsrlq`/`vpclmulqdq`/`vpslldq`/`vpsllq`/`_xor3`
sequence of `_next_tweakvec` computes the batched closed form. -/
theorem nextTweakVec_eq_batched (n t : Nat) (hn : n ≤ 16) (ht : t < 2 ^ 128) :
    nextTweakVec n t = batchedAdvance n t := by
  unfold nextTweakVec batchedAdvance
  simp only []
  set lo : Nat := t % 2 ^ 64 with hlodef
  set hi : Nat := t / 2 ^ 64 with hhidef
  have hlo_lt : lo < 2 ^ 64 := Nat.mod_lt _ (by norm_num)
  have hhi_lt : hi < 2 ^ 64 := by rw [hhidef]; omega
  set A : Nat := (lo <<< n) % 2 ^ 64 with hAdef
  set B : Nat := (hi <<< n) % 2 ^ 64 with hBdef
  set Csm : Nat := lo >>> (64 - n) with hCdef
  set R : Nat := clmul (hi >>> (64 - n)) 0x87 with hRdef
  have hA_lt : A < 2 ^ 64 := Nat.mod_lt _ (by norm_num)
  have hC_lt : Csm < 2 ^ n := shiftRight_lt_pow lo 64 n hlo_lt (by omega)
  have hR_lt : R < 2 ^ 64 := by
    have h1 : hi >>> (64 - n) < 2 ^ n := shiftRight_lt_pow hi 64 n hhi_lt (by omega)
    calc R < 2 ^ (n + 8) := clmul_lt n 8 _ _ h1 (by norm_num)
      _ ≤ 2 ^ 64 := Nat.pow_le_pow_right (by norm_num) (by omega)
  have hpow64 : (2 : Nat) ^ 64 = 2 ^ (64 - n) * 2 ^ n := by
    rw [← Nat.pow_add]
    congr 1
    omega
  have hB : B = 2 ^ n * (hi % 2 ^ (64 - n)) := by
    rw [hBdef, Nat.shiftLeft_eq, hpow64, Nat.mul_mod_mul_right, Nat.mul_comm]
  have hD_lt : hi % 2 ^ (64 - n) < 2 ^ (64 - n) :=
    Nat.mod_lt _ (Nat.pos_pow_of_pos _ (by norm_num))
  have hBC_lt : B + Csm < 2 ^ 64 := by
    calc B + Csm < 2 ^ n * (hi % 2 ^ (64 - n)) + 2 ^ n := by omega
      _ = 2 ^ n * (hi % 2 ^ (64 - n) + 1) := by ring
      _ ≤ 2 ^ n * 2 ^ (64 - n) := Nat.mul_le_mul_left _ (by omega)
      _ = 2 ^ 64 := by rw [← Nat.pow_add]; congr 1; omega
  -- the shifted-out top bits of t are those of the high lane
  have hshr : t >>> (128 - n) = hi >>> (64 - n) := by
    have h1 : 128 - n = 64 + (64 - n) := by omega
    rw [h1, Nat.shiftRight_add]
    congr 1
    rw [Nat.shiftRight_eq_div_pow]
  -- the 128-bit shift decomposes into lanes with the inter-lane carry
  have hshl : (t <<< n) % 2 ^ 128 = A + 2 ^ 64 * (B + Csm) := by
    have hC' : Csm = lo * 2 ^ n / 2 ^ 64 := by
      rw [hCdef, Nat.shiftRight_eq_div_pow, hpow64, Nat.mul_div_mul_right _ _ (Nat.pos_pow_of_pos _ (by norm_num))]
    have hA' : A = lo * 2 ^ n % 2 ^ 64 := by rw [hAdef, Nat.shiftLeft_eq]
    have ht' : t = lo + 2 ^ 64 * hi := by rw [hlodef, hhidef]; omega
    have hsplit : t * 2 ^ n = A + 2 ^ 64 * (Csm + hi * 2 ^ n) := by
      have h2 : lo * 2 ^ n = A + 2 ^ 64 * Csm := by rw [hA', hC']; omega
      calc t * 2 ^ n = lo * 2 ^ n + 2 ^ 64 * (hi * 2 ^ n) := by rw [ht']; ring
        _ = A + 2 ^ 64 * (Csm + hi * 2 ^ n) := by rw [h2]; ring
    rw [Nat.shiftLeft_eq, hsplit, mod_two_pow_128_split _ _ hA_lt]
    have hBmod : hi * 2 ^ n % 2 ^ 64 = B := by rw [hBdef, Nat.shiftLeft_eq]
    generalize hi * 2 ^ n = X at hBmod ⊢
    omega
  -- combine: the three-way XOR assembles the same value
  have step1 : (2 ^ 64 * Csm) ^^^ (A + 2 ^ 64 * B) = A + 2 ^ 64 * (Csm ^^^ B) := by
    have h0 : (2:Nat) ^ 64 * Csm = 0 + 2 ^ 64 * Csm := by omega
    rw [h0, xor_split 64 0 Csm A B (Nat.pos_pow_of_pos _ (by norm_num)) hA_lt]
    simp [Nat.zero_xor]
  have step2 : Csm ^^^ B = B + Csm := by
    have h1 : Csm = Csm + 2 ^ n * 0 := by omega
    have h2 : B = 0 + 2 ^ n * (hi % 2 ^ (64 - n)) := by rw [hB]; omega
    rw [h1, h2, xor_split n Csm 0 0 (hi % 2 ^ (64 - n)) hC_lt (Nat.pos_pow_of_pos _ (by norm_num))]
    simp only [Nat.xor_zero, Nat.zero_xor]
    ring
  have step3 : ∀ X Y : Nat, X < 2 ^ 64 → (X + 2 ^ 64 * Y) ^^^ R = (X ^^^ R) + 2 ^ 64 * Y := by
    intro X Y hX
    have hR0 : R = R + 2 ^ 64 * 0 := by omega
    conv_lhs => rw [hR0]
    rw [xor_split 64 X Y R 0 hX hR_lt]
    simp
  calc (2 ^ 64 * Csm) ^^^ R ^^^ (A + 2 ^ 64 * B)
      = ((2 ^ 64 * Csm) ^^^ (A + 2 ^ 64 * B)) ^^^ R := by
        rw [Nat.xor_assoc, Nat.xor_assoc]
        congr 1
        rw [Nat.xor_comm]
    _ = (A + 2 ^ 64 * (B + Csm)) ^^^ R := by rw [step1, step2]
    _ = (A ^^^ R) + 2 ^ 64 * (B + Csm) := step3 _ _ hA_lt
    _ = ((t <<< n) % 2 ^ 128) ^^^ clmul (t >>> (128 - n)) 0x87 := by
        rw [hshl, hshr, ← hRdef, step3 _ _ hA_lt]

/-- The byte-granular `vpsrldq`/`vpclmulqdq`/`vpslldq`/`_vpxor`
sequence of `_tweak_step_pclmul` computes the batched closed form. -/
theorem tweakStepPclmul_eq_batched (n t : Nat) (hn : n ≤ 16) (ht : t < 2 ^ 128) :
    tweakStepPclmul n t = batchedAdvance n t := by
  unfold tweakStepPclmul batchedAdvance
  simp only []
  congr 2
  apply Nat.mod_eq_of_lt
  calc t >>> (128 - n) < 2 ^ n := shiftRight_lt_pow t 128 n ht (by omega)
    _ ≤ 2 ^ 16 := Nat.pow_le_pow_right (by norm_num) hn
    _ < 2 ^ 64 := by norm_num

/-- **C3.** For every 128-bit tweak `t` (including the all-ones
pattern) and every `n ∈ {1,2,3,4,8,16}`, the batched
carry-less-multiplication advance — both the `vpclmulqdq` path of
`_next_tweakvec` and the completed `_tweak_step_pclmul` sequence
(the latter for its byte-aligned instantiations `n ∈ {8,16}`) —
produces a bit-identical result to `n` sequential applications of the
serial shift-and-reduce single-tweak step `_next_tweak`. -/
theorem batched_tweak_advance_eq_serial (t : Nat) (ht : t < 2 ^ 128) :
    (∀ n ∈ ([1, 2, 3, 4, 8, 16] : List Nat), nextTweakVec n t = nextTweak^[n] t) ∧
    (∀ n ∈ ([8, 16] : List Nat), tweakStepPclmul n t = nextTweak^[n] t) := by
  have hfun : nextTweak = nextTweakSpec := funext next_tweak_correct
  constructor
  · intro n hnmem
    have hn : n ≤ 16 := by
      simp only [List.mem_cons, List.not_mem_nil, or_false] at hnmem
      omega
    rw [nextTweakVec_eq_batched n t hn ht, batchedAdvance_eq_iterate n t hn ht, hfun]
  · intro n hnmem
    have hn : n ≤ 16 := by
      simp only [List.mem_cons, List.not_mem_nil, or_false] at hnmem
      omega
    rw [tweakStepPclmul_eq_batched n t hn ht, batchedAdvance_eq_iterate n t hn ht, hfun]

/-- Witness for C3 at the all-ones tweak (maximum carry propagation)
and the widest advance `n = 16`. -/
theorem batched_tweak_advance_eq_serial_witness :
    (2 ^ 128 - 1 : Nat) < 2 ^ 128 ∧
      nextTweakVec 16 (2 ^ 128 - 1) = nextTweak^[16] (2 ^ 128 - 1) ∧
      tweakStepPclmul 16 (2 ^ 128 - 1) = nextTweak^[16] (2 ^ 128 - 1) :=
  ⟨by norm_num,
    (batched_tweak_advance_eq_serial (2 ^ 128 - 1) (by norm_num)).1 16 (by simp),
    (batched_tweak_advance_eq_serial (2 ^ 128 - 1) (by norm_num)).2 16 (by simp)⟩

attribute [irreducible] nextTweak nextTweakSpec nextTweakVec tweakStepPclmul batchedAdvance

/-! ## The AES block cipher core

The source performs AES rounds with the hardware instructions
`vaesenc`, `vaesenclast`, `vaesdec`, `vaesdeclast`.  These are
architecturally defined to compute one round of the AES cipher
(FIPS 197): `vaesenc` is MixColumns(SubBytes(ShiftRows(state))) XOR
key, `vaesenclast` omits MixColumns, and the `vaesdec` forms use the
inverse transformations (for use with the equivalent-inverse-cipher
key schedule).  We embed a 128-bit AES state as the function from byte
position to byte value (`Fin 16 → Nat`), with the standard
column-major state layout: state row `r`, column `c` is byte `r + 4*c`
of the register. -/

/-- An AES state / 128-bit SIMD lane, byte `i` of the register. -/
def Block : Type := Fin 16 → Nat

instance : DecidableEq Block := inferInstanceAs (DecidableEq (Fin 16 → Nat))

/-- All bytes of a block are in range. -/
def BytesInRange (s : Block) : Prop := ∀ i, s i < 256

instance (s : Block) : Decidable (BytesInRange s) :=
  inferInstanceAs (Decidable (∀ i : Fin 16, s i < 256))

/-- The AES S-box (FIPS 197, Fig. 7). -/
def sboxTable : List Nat := [
  0x63, 0x7c, 0x77, 0x7b, 0xf2, 0x6b, 0x6f, 0xc5,
  0x30, 0x01, 0x67, 0x2b, 0xfe, 0xd7, 0xab, 0x76,
  0xca, 0x82, 0xc9, 0x7d, 0xfa, 0x59, 0x47, 0xf0,
  0xad, 0xd4, 0xa2, 0xaf, 0x9c, 0xa4, 0x72, 0xc0,
  0xb7, 0xfd, 0x93, 0x26, 0x36, 0x3f, 0xf7, 0xcc,
  0x34, 0xa5, 0xe5, 0xf1, 0x71, 0xd8, 0x31, 0x15,
  0x04, 0xc7, 0x23, 0xc3, 0x18, 0x96, 0x05, 0x9a,
  0x07, 0x12, 0x80, 0xe2, 0xeb, 0x27, 0xb2, 0x75,
  0x09, 0x83, 0x2c, 0x1a, 0x1b, 0x6e, 0x5a, 0xa0,
  0x52, 0x3b, 0xd6, 0xb3, 0x29, 0xe3, 0x2f, 0x84,
  0x53, 0xd1, 0x00, 0xed, 0x20, 0xfc, 0xb1, 0x5b,
  0x6a, 0xcb, 0xbe, 0x39, 0x4a, 0x4c, 0x58, 0xcf,
  0xd0, 0xef, 0xaa, 0xfb, 0x43, 0x4d, 0x33, 0x85,
  0x45, 0xf9, 0x02, 0x7f, 0x50, 0x3c, 0x9f, 0xa8,
  0x51, 0xa3, 0x40, 0x8f, 0x92, 0x9d, 0x38, 0xf5,
  0xbc, 0xb6, 0xda, 0x21, 0x10, 0xff, 0xf3, 0xd2,
  0xcd, 0x0c, 0x13, 0xec, 0x5f, 0x97, 0x44, 0x17,
  0xc4, 0xa7, 0x7e, 0x3d, 0x64, 0x5d, 0x19, 0x73,
  0x60, 0x81, 0x4f, 0xdc, 0x22, 0x2a, 0x90, 0x88,
  0x46, 0xee, 0xb8, 0x14, 0xde, 0x5e, 0x0b, 0xdb,
  0xe0, 0x32, 0x3a, 0x0a, 0x49, 0x06, 0x24, 0x5c,
  0xc2, 0xd3, 0xac, 0x62, 0x91, 0x95, 0xe4, 0x79,
  0xe7, 0xc8, 0x37, 0x6d, 0x8d, 0xd5, 0x4e, 0xa9,
  0x6c, 0x56, 0xf4, 0xea, 0x65, 0x7a, 0xae, 0x08,
  0xba, 0x78, 0x25, 0x2e, 0x1c, 0xa6, 0xb4, 0xc6,
  0xe8, 0xdd, 0x74, 0x1f, 0x4b, 0xbd, 0x8b, 0x8a,
  0x70, 0x3e, 0xb5, 0x66, 0x48, 0x03, 0xf6, 0x0e,
  0x61, 0x35, 0x57, 0xb9, 0x86, 0xc1, 0x1d, 0x9e,
  0xe1, 0xf8, 0x98, 0x11, 0x69, 0xd9, 0x8e, 0x94,
  0x9b, 0x1e, 0x87, 0xe9, 0xce, 0x55, 0x28, 0xdf,
  0x8c, 0xa1, 0x89, 0x0d, 0xbf, 0xe6, 0x42, 0x68,
  0x41, 0x99, 0x2d, 0x0f, 0xb0, 0x54, 0xbb, 0x16]

/-- The inverse AES S-box. -/
def invSboxTable : List Nat := [
  0x52, 0x09, 0x6a, 0xd5, 0x30, 0x36, 0xa5, 0x38,
  0xbf, 0x40, 0xa3, 0x9e, 0x81, 0xf3, 0xd7, 0xfb,
  0x7c, 0xe3, 0x39, 0x82, 0x9b, 0x2f, 0xff, 0x87,
  0x34, 0x8e, 0x43, 0x44, 0xc4, 0xde, 0xe9, 0xcb,
  0x54, 0x7b, 0x94, 0x32, 0xa6, 0xc2, 0x23, 0x3d,
  0xee, 0x4c, 0x95, 0x0b, 0x42, 0xfa, 0xc3, 0x4e,
  0x08, 0x2e, 0xa1, 0x66, 0x28, 0xd9, 0x24, 0xb2,
  0x76, 0x5b, 0xa2, 0x49, 0x6d, 0x8b, 0xd1, 0x25,
  0x72, 0xf8, 0xf6, 0x64, 0x86, 0x68, 0x98, 0x16,
  0xd4, 0xa4, 0x5c, 0xcc, 0x5d, 0x65, 0xb6, 0x92,
  0x6c, 0x70, 0x48, 0x50, 0xfd, 0xed, 0xb9, 0xda,
  0x5e, 0x15, 0x46, 0x57, 0xa7, 0x8d, 0x9d, 0x84,
  0x90, 0xd8, 0xab, 0x00, 0x8c, 0xbc, 0xd3, 0x0a,
  0xf7, 0xe4, 0x58, 0x05, 0xb8, 0xb3, 0x45, 0x06,
  0xd0, 0x2c, 0x1e, 0x8f, 0xca, 0x3f, 0x0f, 0x02,
  0xc1, 0xaf, 0xbd, 0x03, 0x01, 0x13, 0x8a, 0x6b,
  0x3a, 0x91, 0x11, 0x41, 0x4f, 0x67, 0xdc, 0xea,
  0x97, 0xf2, 0xcf, 0xce, 0xf0, 0xb4, 0xe6, 0x73,
  0x96, 0xac, 0x74, 0x22, 0xe7, 0xad, 0x35, 0x85,
  0xe2, 0xf9, 0x37, 0xe8, 0x1c, 0x75, 0xdf, 0x6e,
  0x47, 0xf1, 0x1a, 0x71, 0x1d, 0x29, 0xc5, 0x89,
  0x6f, 0xb7, 0x62, 0x0e, 0xaa, 0x18, 0xbe, 0x1b,
  0xfc, 0x56, 0x3e, 0x4b, 0xc6, 0xd2, 0x79, 0x20,
  0x9a, 0xdb, 0xc0, 0xfe, 0x78, 0xcd, 0x5a, 0xf4,
  0x1f, 0xdd, 0xa8, 0x33, 0x88, 0x07, 0xc7, 0x31,
  0xb1, 0x12, 0x10, 0x59, 0x27, 0x80, 0xec, 0x5f,
  0x60, 0x51, 0x7f, 0xa9, 0x19, 0xb5, 0x4a, 0x0d,
  0x2d, 0xe5, 0x7a, 0x9f, 0x93, 0xc9, 0x9c, 0xef,
  0xa0, 0xe0, 0x3b, 0x4d, 0xae, 0x2a, 0xf5, 0xb0,
  0xc8, 0xeb, 0xbb, 0x3c, 0x83, 0x53, 0x99, 0x61,
  0x17, 0x2b, 0x04, 0x7e, 0xba, 0x77, 0xd6, 0x26,
  0xe1, 0x69, 0x14, 0x63, 0x55, 0x21, 0x0c, 0x7d]

def sbox (b : Nat) : Nat := sboxTable.getD b 0

def invSbox (b : Nat) : Nat := invSboxTable.getD b 0

def subBytes (s : Block) : Block := fun i => sbox (s i)

def invSubBytes (s : Block) : Block := fun i => invSbox (s i)

/-- ShiftRows source index: output byte `r + 4c` takes input byte
`r + 4*((c + r) mod 4)` (row `r` rotated left by `r`). -/
def srPerm (i : Fin 16) : Fin 16 :=
  ⟨i.val % 4 + 4 * ((i.val / 4 + i.val % 4) % 4), by omega⟩

/-- InvShiftRows source index: output byte `r + 4c` takes input byte
`r + 4*((c - r) mod 4)` (row `r` rotated right by `r`). -/
def isrPerm (i : Fin 16) : Fin 16 :=
  ⟨i.val % 4 + 4 * ((i.val / 4 + 4 - i.val % 4) % 4), by omega⟩

def shiftRows (s : Block) : Block := fun i => s (srPerm i)

def invShiftRows (s : Block) : Block := fun i => s (isrPerm i)

/-- Multiplication by `x` in GF(2^8) modulo the AES polynomial, on a
byte. -/
def xtime (b : Nat) : Nat :=
  if b.testBit 7 then (2 * b ^^^ 0x1b) % 256 else 2 * b % 256

def gm2 (b : Nat) : Nat := xtime b

def gm3 (b : Nat) : Nat := xtime b ^^^ b

def gm9 (b : Nat) : Nat := xtime (xtime (xtime b)) ^^^ b

def gm11 (b : Nat) : Nat := xtime (xtime (xtime b)) ^^^ xtime b ^^^ b

def gm13 (b : Nat) : Nat := xtime (xtime (xtime b)) ^^^ xtime (xtime b) ^^^ b

def gm14 (b : Nat) : Nat := xtime (xtime (xtime b)) ^^^ xtime (xtime b) ^^^ xtime b

/-- Index of row `j` within the column that contains byte position `i`. -/
def colIdx (i : Fin 16) (j : Fin 4) : Fin 16 := ⟨4 * (i.val / 4) + j.val, by omega⟩

def mixColumns (s : Block) : Block := fun i =>
  let a := s (colIdx i 0)
  let b := s (colIdx i 1)
  let c := s (colIdx i 2)
  let d := s (colIdx i 3)
  if i.val % 4 = 0 then gm2 a ^^^ gm3 b ^^^ c ^^^ d
  else if i.val % 4 = 1 then a ^^^ gm2 b ^^^ gm3 c ^^^ d
  else if i.val % 4 = 2 then a ^^^ b ^^^ gm2 c ^^^ gm3 d
  else gm3 a ^^^ b ^^^ c ^^^ gm2 d

def invMixColumns (s : Block) : Block := fun i =>
  let a := s (colIdx i 0)
  let b := s (colIdx i 1)
  let c := s (colIdx i 2)
  let d := s (colIdx i 3)
  if i.val % 4 = 0 then gm14 a ^^^ gm11 b ^^^ gm13 c ^^^ gm9 d
  else if i.val % 4 = 1 then gm9 a ^^^ gm14 b ^^^ gm11 c ^^^ gm13 d
  else if i.val % 4 = 2 then gm13 a ^^^ gm9 b ^^^ gm14 c ^^^ gm11 d
  else gm11 a ^^^ gm13 b ^^^ gm9 c ^^^ gm14 d

/-- Bytewise XOR of blocks (`vpxor`). -/
def xorB (a b : Block) : Block := fun i => a i ^^^ b i

/-- Semantics of the `_vaes` macro: one `vaesenc`/`vaesenclast`/
`vaesdec`/`vaesdeclast` instruction on one 128-bit lane. -/
def vaes (enc last : Bool) (key s : Block) : Block :=
  if enc then
    if last then xorB (subBytes (shiftRows s)) key
    else xorB (mixColumns (subBytes (shiftRows s))) key
  else
    if last then xorB (invSubBytes (invShiftRows s)) key
    else xorB (invMixColumns (invSubBytes (invShiftRows s))) key

/-! ## `_aes_crypt`: the tweaked per-block cipher -/

/-- Embedding of the `_xor3` macro in its two-`vpxor` form
(`!USE_AVX10`): first `dst := src1 ^^^ dst`, then `dst := src2 ^^^ dst`. -/
def xor3 (src1 src2 dst : Block) : Block := fun i => src2 i ^^^ (src1 i ^^^ dst i)

/-- Bit-table semantics of `vpternlogd` with immediate `0x96` (the
`USE_AVX10` form of `_xor3`): each result bit is the entry of the
8-entry truth table `0x96` selected by the corresponding bits of the
three sources. -/
def ternlog96 (a b c : Nat) : Nat :=
  if a = 0 ∧ b = 0 ∧ c = 0 then 0
  else 2 * ternlog96 (a / 2) (b / 2) (c / 2) +
    (if (0x96 : Nat).testBit (4 * (a % 2) + 2 * (b % 2) + c % 2) then 1 else 0)
termination_by a + b + c
decreasing_by
  rename_i h
  have : ¬ (a = 0 ∧ b = 0 ∧ c = 0) := h
  omega

/-- `vpternlogd $0x96` is the three-argument XOR. -/
theorem ternlog96_eq_xor (a b c : Nat) : ternlog96 a b c = a ^^^ b ^^^ c := by
  generalize hN : a + b + c = N
  induction N using Nat.strong_induction_on generalizing a b c with
  | _ N ih =>
    by_cases h0 : a = 0 ∧ b = 0 ∧ c = 0
    · obtain ⟨ha, hb, hc⟩ := h0
      subst ha
      subst hb
      subst hc
      rw [ternlog96]
      simp
    · rw [ternlog96]
      simp only [h0, if_false]
      subst hN
      have hlt : a / 2 + b / 2 + c / 2 < a + b + c := by omega
      rw [ih _ hlt _ _ _ rfl]
      have hdiv : (a ^^^ b ^^^ c) / 2 = a / 2 ^^^ b / 2 ^^^ c / 2 := by
        rw [Nat.xor_div_two, Nat.xor_div_two]
      have hmod : (a ^^^ b ^^^ c) % 2 = (a % 2 + b % 2 + c % 2) % 2 := by
        have h1 : (a ^^^ b) % 2 = (a + b) % 2 := Nat.xor_mod_two_eq
        have h2 : (a ^^^ b ^^^ c) % 2 = ((a ^^^ b) + c) % 2 := Nat.xor_mod_two_eq
        omega
      have hbit : (if (0x96 : Nat).testBit (4 * (a % 2) + 2 * (b % 2) + c % 2) then 1 else 0) =
          (a % 2 + b % 2 + c % 2) % 2 := by
        rcases Nat.mod_two_eq_zero_or_one a with ha | ha <;>
          rcases Nat.mod_two_eq_zero_or_one b with hb | hb <;>
            rcases Nat.mod_two_eq_zero_or_one c with hc | hc <;>
              rw [ha, hb, hc] <;> decide
      rw [hbit]
      omega

/-- The fused three-way XOR as performed by the `USE_AVX10` form of
`_xor3` (`vpternlogd $0x96, src1, src2, dst`), bytewise on a block. -/
def xor3Fused (src1 src2 dst : Block) : Block := fun i =>
  ternlog96 (src1 i) (src2 i) (dst i)

/-- Embedding of the `_aes_crypt` macro (single lane): XOR the data
with the tweak and round key 0 via `_xor3`, nine unconditional AES
rounds with keys 1..9, then the key-length branch (`cmp $24, KEYLEN`;
`jle`): three more rounds and a last round with keys 10..14 for
AES-256, one extra pair of rounds and a last round with keys 10..12
for AES-192, or the last round with key 10 for AES-128; finally XOR
with the tweak again. -/
def aesCrypt (enc : Bool) (keys : Nat → Block) (klen : Nat) (tweak data : Block) : Block :=
  let s := xor3 (keys 0) tweak data
  let s := vaes enc false (keys 1) s
  let s := vaes enc false (keys 2) s
  let s := vaes enc false (keys 3) s
  let s := vaes enc false (keys 4) s
  let s := vaes enc false (keys 5) s
  let s := vaes enc false (keys 6) s
  let s := vaes enc false (keys 7) s
  let s := vaes enc false (keys 8) s
  let s := vaes enc false (keys 9) s
  let s :=
    if klen ≤ 24 then
      if klen = 24 then
        vaes enc true (keys 12) (vaes enc false (keys 11) (vaes enc false (keys 10) s))
      else
        vaes enc true (keys 10) s
    else
      vaes enc true (keys 14) (vaes enc false (keys 13)
        (vaes enc false (keys 12) (vaes enc false (keys 11) (vaes enc false (keys 10) s))))
  xorB tweak s

/-- A generic AES round loop: non-final rounds with keys
`1 .. nr - 1`, then the final round with key `nr`. -/
def aesRoundsGeneric (enc : Bool) (keys : Nat → Block) (nr : Nat) (s : Block) : Block :=
  vaes enc true (keys nr)
    ((List.range' 1 (nr - 1)).foldl (fun st i => vaes enc false (keys i) st) s)

/-- The AES round count as a function of the key length in bytes. -/
def numRounds (klen : Nat) : Nat := klen / 4 + 6

/-- **C4.** For every key-length tag (16, 24 or 32 bytes) the cipher
core applies exactly 10, 12 or 14 rounds respectively: the round
count is `klen/4 + 6`, fully determined by the key-length tag, and
the branchy round sequence of `_aes_crypt` (rounds 1..9 unconditional,
then 0, 1 or 3 additional non-final rounds selected by the key-length
branch, then the direction-specific last round) coincides with a
generic loop of that many rounds. -/
theorem aes_crypt_round_count (enc : Bool) (keys : Nat → Block) (klen : Nat)
    (tweak data : Block) (hk : klen = 16 ∨ klen = 24 ∨ klen = 32) :
    numRounds klen = (if klen = 16 then 10 else if klen = 24 then 12 else 14) ∧
    aesCrypt enc keys klen tweak data =
      xorB tweak (aesRoundsGeneric enc keys (numRounds klen) (xor3 (keys 0) tweak data)) := by
  rcases hk with h | h | h <;> subst h <;> exact ⟨by norm_num [numRounds], rfl⟩

/-- The all-zero block and all-zero key schedule, used as concrete
witness inputs. -/
def zeroBlock : Block := fun _ => 0

def zeroKeys : Nat → Block := fun _ => zeroBlock

/-- Witness for C4 at a concrete key length and input. -/
theorem aes_crypt_round_count_witness :
    ((16 : Nat) = 16 ∨ (16 : Nat) = 24 ∨ (16 : Nat) = 32) ∧
    (numRounds 16 = (if (16 : Nat) = 16 then 10 else if (16 : Nat) = 24 then 12 else 14) ∧
      aesCrypt true zeroKeys 16 zeroBlock zeroBlock =
        xorB zeroBlock (aesRoundsGeneric true zeroKeys (numRounds 16)
          (xor3 (zeroKeys 0) zeroBlock zeroBlock))) :=
  ⟨Or.inl rfl, aes_crypt_round_count true zeroKeys 16 zeroBlock zeroBlock (Or.inl rfl)⟩

/-! ## Inversion of the AES round transformations -/

theorem sboxTable_length : sboxTable.length = 256 := by rfl

theorem invSboxTable_length : invSboxTable.length = 256 := by rfl

theorem sbox_lt_of_lt : ∀ b, b < 256 → sbox b < 256 := by decide

theorem invSbox_lt_of_lt : ∀ b, b < 256 → invSbox b < 256 := by decide

theorem invSbox_sbox : ∀ b, b < 256 → invSbox (sbox b) = b := by decide

theorem sbox_lt (b : Nat) : sbox b < 256 := by
  by_cases h : b < 256
  · exact sbox_lt_of_lt b h
  · unfold sbox
    rw [List.getD_eq_default]
    · norm_num
    · rw [sboxTable_length]
      omega

theorem invSbox_lt (b : Nat) : invSbox b < 256 := by
  by_cases h : b < 256
  · exact invSbox_lt_of_lt b h
  · unfold invSbox
    rw [List.getD_eq_default]
    · norm_num
    · rw [invSboxTable_length]
      omega

theorem xor_lt_256 {a b : Nat} (ha : a < 256) (hb : b < 256) : a ^^^ b < 256 := by
  have h256 : (256 : Nat) = 2 ^ 8 := by norm_num
  rw [h256] at ha hb ⊢
  exact Nat.xor_lt_two_pow ha hb

theorem xtime_lt (b : Nat) : xtime b < 256 := by
  unfold xtime
  split <;> exact Nat.mod_lt _ (by norm_num)

theorem subBytes_bytes (s : Block) : BytesInRange (subBytes s) := fun _ => sbox_lt _

theorem invSubBytes_bytes (s : Block) : BytesInRange (invSubBytes s) := fun _ => invSbox_lt _

theorem shiftRows_bytes (s : Block) (h : BytesInRange s) : BytesInRange (shiftRows s) :=
  fun i => h (srPerm i)

theorem invShiftRows_bytes (s : Block) (h : BytesInRange s) : BytesInRange (invShiftRows s) :=
  fun i => h (isrPerm i)

theorem xorB_bytes {a b : Block} (ha : BytesInRange a) (hb : BytesInRange b) :
    BytesInRange (xorB a b) := fun i => xor_lt_256 (ha i) (hb i)

theorem mixColumns_bytes (s : Block) (h : BytesInRange s) : BytesInRange (mixColumns s) := by
  intro i
  unfold mixColumns
  dsimp only
  split_ifs <;>
    first
      | exact xor_lt_256 (xor_lt_256 (xor_lt_256 (xtime_lt _) (xor_lt_256 (xtime_lt _) (h _))) (h _)) (h _)
      | exact xor_lt_256 (xor_lt_256 (xor_lt_256 (h _) (xtime_lt _)) (xor_lt_256 (xtime_lt _) (h _))) (h _)
      | exact xor_lt_256 (xor_lt_256 (xor_lt_256 (h _) (h _)) (xtime_lt _)) (xor_lt_256 (xtime_lt _) (h _))
      | exact xor_lt_256 (xor_lt_256 (xor_lt_256 (xor_lt_256 (xtime_lt _) (h _)) (h _)) (h _)) (xtime_lt _)

theorem invMixColumns_bytes (s : Block) (h : BytesInRange s) : BytesInRange (invMixColumns s) := by
  have hx3 : ∀ b : Nat, xtime (xtime (xtime b)) < 256 := fun b => xtime_lt _
  have h9 : ∀ b : Nat, b < 256 → gm9 b < 256 := fun b hb => xor_lt_256 (hx3 b) hb
  have h11 : ∀ b : Nat, b < 256 → gm11 b < 256 := fun b hb =>
    xor_lt_256 (xor_lt_256 (hx3 b) (xtime_lt _)) hb
  have h13 : ∀ b : Nat, b < 256 → gm13 b < 256 := fun b hb =>
    xor_lt_256 (xor_lt_256 (hx3 b) (xtime_lt _)) hb
  have h14 : ∀ b : Nat, gm14 b < 256 := fun b =>
    xor_lt_256 (xor_lt_256 (hx3 b) (xtime_lt _)) (xtime_lt _)
  intro i
  unfold invMixColumns
  dsimp only
  split_ifs <;>
    first
      | exact xor_lt_256 (xor_lt_256 (xor_lt_256 (h14 _) (h11 _ (h _))) (h13 _ (h _))) (h9 _ (h _))
      | exact xor_lt_256 (xor_lt_256 (xor_lt_256 (h9 _ (h _)) (h14 _)) (h11 _ (h _))) (h13 _ (h _))
      | exact xor_lt_256 (xor_lt_256 (xor_lt_256 (h13 _ (h _)) (h9 _ (h _))) (h14 _)) (h11 _ (h _))
      | exact xor_lt_256 (xor_lt_256 (xor_lt_256 (h11 _ (h _)) (h13 _ (h _))) (h9 _ (h _))) (h14 _)

theorem vaes_bytes (enc last : Bool) (k s : Block) (hk : BytesInRange k) :
    BytesInRange (vaes enc last k s) := by
  unfold vaes
  rcases enc <;> rcases last <;>
    first
      | exact xorB_bytes (invSubBytes_bytes _) hk
      | exact xorB_bytes (invMixColumns_bytes _ (invSubBytes_bytes _)) hk
      | exact xorB_bytes (subBytes_bytes _) hk
      | exact xorB_bytes (mixColumns_bytes _ (subBytes_bytes _)) hk

theorem srPerm_isrPerm : ∀ i, srPerm (isrPerm i) = i := by decide

theorem invShiftRows_shiftRows (s : Block) : invShiftRows (shiftRows s) = s :=
  funext fun i => congrArg s (srPerm_isrPerm i)

theorem invShiftRows_subBytes (s : Block) :
    invShiftRows (subBytes s) = subBytes (invShiftRows s) := rfl

theorem invSubBytes_subBytes (s : Block) (h : BytesInRange s) :
    invSubBytes (subBytes s) = s :=
  funext fun i => invSbox_sbox (s i) (h i)

/-! GF(2^8) linearity of the MixColumns coefficients. -/

theorem xor_xor_cancel (a b c : Nat) : (a ^^^ c) ^^^ (b ^^^ c) = a ^^^ b := by
  have h : (a ^^^ c) ^^^ (b ^^^ c) = (a ^^^ b) ^^^ (c ^^^ c) := by ac_rfl
  rw [h, Nat.xor_self, Nat.xor_zero]

theorem xtime_add (x y : Nat) : xtime (x ^^^ y) = xtime x ^^^ xtime y := by
  have hm : ∀ a b : Nat, (a ^^^ b) % 256 = a % 256 ^^^ b % 256 := by
    intro a b
    have h := mod_two_pow_xor 8 a b
    norm_num at h
    exact h
  have h27 : (27 : Nat) % 256 = 27 := by norm_num
  unfold xtime
  rw [Nat.testBit_xor, two_mul_xor]
  rcases hx : x.testBit 7 <;> rcases hy : y.testBit 7 <;>
    simp only [hx, hy, bne_self_eq_false, Bool.true_bne, Bool.false_bne, Bool.not_true,
      Bool.not_false, Bool.false_eq_true, if_false, if_true]
  · rw [hm]
  · rw [hm, hm, hm, h27]
    ac_rfl
  · rw [hm, hm, hm, h27]
    ac_rfl
  · rw [hm, hm, hm, h27]
    exact (xor_xor_cancel _ _ 27).symm

theorem gm2_add (x y : Nat) : gm2 (x ^^^ y) = gm2 x ^^^ gm2 y := xtime_add x y

theorem gm3_add (x y : Nat) : gm3 (x ^^^ y) = gm3 x ^^^ gm3 y := by
  unfold gm3
  rw [xtime_add]
  ac_rfl

theorem gm9_add (x y : Nat) : gm9 (x ^^^ y) = gm9 x ^^^ gm9 y := by
  unfold gm9
  rw [xtime_add, xtime_add, xtime_add]
  ac_rfl

theorem gm11_add (x y : Nat) : gm11 (x ^^^ y) = gm11 x ^^^ gm11 y := by
  unfold gm11
  rw [xtime_add, xtime_add, xtime_add]
  ac_rfl

theorem gm13_add (x y : Nat) : gm13 (x ^^^ y) = gm13 x ^^^ gm13 y := by
  unfold gm13
  rw [xtime_add, xtime_add, xtime_add]
  ac_rfl

theorem gm14_add (x y : Nat) : gm14 (x ^^^ y) = gm14 x ^^^ gm14 y := by
  unfold gm14
  rw [xtime_add, xtime_add, xtime_add]
  ac_rfl

/-- Convolution of the InvMixColumns and MixColumns coefficient rows,
offset 0: the product matrix has 1 on the diagonal. -/
theorem conv0 : ∀ x, x < 256 → gm14 (gm2 x) ^^^ gm11 x ^^^ gm13 x ^^^ gm9 (gm3 x) = x := by
  decide

/-- Offsets 1..3 of the coefficient-row convolution vanish. -/
theorem conv1 : ∀ x, x < 256 → gm14 (gm3 x) ^^^ gm11 (gm2 x) ^^^ gm13 x ^^^ gm9 x = 0 := by
  decide

theorem conv2 : ∀ x, x < 256 → gm14 x ^^^ gm11 (gm3 x) ^^^ gm13 (gm2 x) ^^^ gm9 x = 0 := by
  decide

theorem conv3 : ∀ x, x < 256 → gm14 x ^^^ gm11 x ^^^ gm13 (gm3 x) ^^^ gm9 (gm2 x) = 0 := by
  decide

theorem imc_mc_row0 (a b c d : Nat) (ha : a < 256) (hb : b < 256) (hc : c < 256)
    (hd : d < 256) :
    gm14 (gm2 a ^^^ gm3 b ^^^ c ^^^ d) ^^^ gm11 (a ^^^ gm2 b ^^^ gm3 c ^^^ d) ^^^
      gm13 (a ^^^ b ^^^ gm2 c ^^^ gm3 d) ^^^ gm9 (gm3 a ^^^ b ^^^ c ^^^ gm2 d) = a := by
  rw [gm14_add, gm14_add, gm14_add, gm11_add, gm11_add, gm11_add,
    gm13_add, gm13_add, gm13_add, gm9_add, gm9_add, gm9_add]
  have hgroup :
      gm14 (gm2 a) ^^^ gm14 (gm3 b) ^^^ gm14 c ^^^ gm14 d ^^^
        (gm11 a ^^^ gm11 (gm2 b) ^^^ gm11 (gm3 c) ^^^ gm11 d) ^^^
        (gm13 a ^^^ gm13 b ^^^ gm13 (gm2 c) ^^^ gm13 (gm3 d)) ^^^
        (gm9 (gm3 a) ^^^ gm9 b ^^^ gm9 c ^^^ gm9 (gm2 d)) =
      (gm14 (gm2 a) ^^^ gm11 a ^^^ gm13 a ^^^ gm9 (gm3 a)) ^^^
        (gm14 (gm3 b) ^^^ gm11 (gm2 b) ^^^ gm13 b ^^^ gm9 b) ^^^
        (gm14 c ^^^ gm11 (gm3 c) ^^^ gm13 (gm2 c) ^^^ gm9 c) ^^^
        (gm14 d ^^^ gm11 d ^^^ gm13 (gm3 d) ^^^ gm9 (gm2 d)) := by ac_rfl
  rw [hgroup, conv0 a ha, conv1 b hb, conv2 c hc, conv3 d hd, Nat.xor_zero, Nat.xor_zero,
    Nat.xor_zero]

theorem imc_mc_row1 (a b c d : Nat) (ha : a < 256) (hb : b < 256) (hc : c < 256)
    (hd : d < 256) :
    gm9 (gm2 a ^^^ gm3 b ^^^ c ^^^ d) ^^^ gm14 (a ^^^ gm2 b ^^^ gm3 c ^^^ d) ^^^
      gm11 (a ^^^ b ^^^ gm2 c ^^^ gm3 d) ^^^ gm13 (gm3 a ^^^ b ^^^ c ^^^ gm2 d) = b := by
  rw [gm9_add, gm9_add, gm9_add, gm14_add, gm14_add, gm14_add,
    gm11_add, gm11_add, gm11_add, gm13_add, gm13_add, gm13_add]
  have hgroup :
      gm9 (gm2 a) ^^^ gm9 (gm3 b) ^^^ gm9 c ^^^ gm9 d ^^^
        (gm14 a ^^^ gm14 (gm2 b) ^^^ gm14 (gm3 c) ^^^ gm14 d) ^^^
        (gm11 a ^^^ gm11 b ^^^ gm11 (gm2 c) ^^^ gm11 (gm3 d)) ^^^
        (gm13 (gm3 a) ^^^ gm13 b ^^^ gm13 c ^^^ gm13 (gm2 d)) =
      (gm14 a ^^^ gm11 a ^^^ gm13 (gm3 a) ^^^ gm9 (gm2 a)) ^^^
        (gm14 (gm2 b) ^^^ gm11 b ^^^ gm13 b ^^^ gm9 (gm3 b)) ^^^
        (gm14 (gm3 c) ^^^ gm11 (gm2 c) ^^^ gm13 c ^^^ gm9 c) ^^^
        (gm14 d ^^^ gm11 (gm3 d) ^^^ gm13 (gm2 d) ^^^ gm9 d) := by ac_rfl
  rw [hgroup, conv3 a ha, conv0 b hb, conv1 c hc, conv2 d hd, Nat.xor_zero, Nat.xor_zero,
    Nat.zero_xor]

theorem imc_mc_row2 (a b c d : Nat) (ha : a < 256) (hb : b < 256) (hc : c < 256)
    (hd : d < 256) :
    gm13 (gm2 a ^^^ gm3 b ^^^ c ^^^ d) ^^^ gm9 (a ^^^ gm2 b ^^^ gm3 c ^^^ d) ^^^
      gm14 (a ^^^ b ^^^ gm2 c ^^^ gm3 d) ^^^ gm11 (gm3 a ^^^ b ^^^ c ^^^ gm2 d) = c := by
  rw [gm13_add, gm13_add, gm13_add, gm9_add, gm9_add, gm9_add,
    gm14_add, gm14_add, gm14_add, gm11_add, gm11_add, gm11_add]
  have hgroup :
      gm13 (gm2 a) ^^^ gm13 (gm3 b) ^^^ gm13 c ^^^ gm13 d ^^^
        (gm9 a ^^^ gm9 (gm2 b) ^^^ gm9 (gm3 c) ^^^ gm9 d) ^^^
        (gm14 a ^^^ gm14 b ^^^ gm14 (gm2 c) ^^^ gm14 (gm3 d)) ^^^
        (gm11 (gm3 a) ^^^ gm11 b ^^^ gm11 c ^^^ gm11 (gm2 d)) =
      (gm14 a ^^^ gm11 (gm3 a) ^^^ gm13 (gm2 a) ^^^ gm9 a) ^^^
        (gm14 b ^^^ gm11 b ^^^ gm13 (gm3 b) ^^^ gm9 (gm2 b)) ^^^
        (gm14 (gm2 c) ^^^ gm11 c ^^^ gm13 c ^^^ gm9 (gm3 c)) ^^^
        (gm14 (gm3 d) ^^^ gm11 (gm2 d) ^^^ gm13 d ^^^ gm9 d) := by ac_rfl
  rw [hgroup, conv2 a ha, conv3 b hb, conv0 c hc, conv1 d hd, Nat.xor_zero, Nat.zero_xor,
    Nat.zero_xor]

theorem imc_mc_row3 (a b c d : Nat) (ha : a < 256) (hb : b < 256) (hc : c < 256)
    (hd : d < 256) :
    gm11 (gm2 a ^^^ gm3 b ^^^ c ^^^ d) ^^^ gm13 (a ^^^ gm2 b ^^^ gm3 c ^^^ d) ^^^
      gm9 (a ^^^ b ^^^ gm2 c ^^^ gm3 d) ^^^ gm14 (gm3 a ^^^ b ^^^ c ^^^ gm2 d) = d := by
  rw [gm11_add, gm11_add, gm11_add, gm13_add, gm13_add, gm13_add,
    gm9_add, gm9_add, gm9_add, gm14_add, gm14_add, gm14_add]
  have hgroup :
      gm11 (gm2 a) ^^^ gm11 (gm3 b) ^^^ gm11 c ^^^ gm11 d ^^^
        (gm13 a ^^^ gm13 (gm2 b) ^^^ gm13 (gm3 c) ^^^ gm13 d) ^^^
        (gm9 a ^^^ gm9 b ^^^ gm9 (gm2 c) ^^^ gm9 (gm3 d)) ^^^
        (gm14 (gm3 a) ^^^ gm14 b ^^^ gm14 c ^^^ gm14 (gm2 d)) =
      (gm14 (gm3 a) ^^^ gm11 (gm2 a) ^^^ gm13 a ^^^ gm9 a) ^^^
        (gm14 b ^^^ gm11 (gm3 b) ^^^ gm13 (gm2 b) ^^^ gm9 b) ^^^
        (gm14 c ^^^ gm11 c ^^^ gm13 (gm3 c) ^^^ gm9 (gm2 c)) ^^^
        (gm14 (gm2 d) ^^^ gm11 d ^^^ gm13 d ^^^ gm9 (gm3 d)) := by ac_rfl
  rw [hgroup, conv1 a ha, conv2 b hb, conv3 c hc, conv0 d hd, Nat.zero_xor, Nat.zero_xor,
    Nat.zero_xor]

theorem colIdx_colIdx (i : Fin 16) (j j' : Fin 4) : colIdx (colIdx i j) j' = colIdx i j' := by
  unfold colIdx
  apply Fin.ext
  simp only []
  omega

theorem colIdx_row (i : Fin 16) (j : Fin 4) : (colIdx i j).val % 4 = j.val := by
  unfold colIdx
  simp only []
  omega

/-- `invMixColumns` is XOR-linear. -/
theorem invMixColumns_xorB (u v : Block) :
    invMixColumns (xorB u v) = xorB (invMixColumns u) (invMixColumns v) := by
  funext i
  show invMixColumns (xorB u v) i = invMixColumns u i ^^^ invMixColumns v i
  unfold invMixColumns xorB
  dsimp only
  split_ifs <;>
    rw [gm14_add, gm11_add, gm13_add, gm9_add] <;> ac_rfl

theorem mixColumns_col0 (s : Block) (i : Fin 16) :
    mixColumns s (colIdx i 0) =
      gm2 (s (colIdx i 0)) ^^^ gm3 (s (colIdx i 1)) ^^^ s (colIdx i 2) ^^^ s (colIdx i 3) := by
  unfold mixColumns
  dsimp only
  rw [colIdx_colIdx, colIdx_colIdx, colIdx_colIdx, colIdx_colIdx]
  have hr : (colIdx i (0 : Fin 4)).val % 4 = 0 := by
    rw [colIdx_row]
    rfl
  simp [hr]

theorem mixColumns_col1 (s : Block) (i : Fin 16) :
    mixColumns s (colIdx i 1) =
      s (colIdx i 0) ^^^ gm2 (s (colIdx i 1)) ^^^ gm3 (s (colIdx i 2)) ^^^ s (colIdx i 3) := by
  unfold mixColumns
  dsimp only
  rw [colIdx_colIdx, colIdx_colIdx, colIdx_colIdx, colIdx_colIdx]
  have hr : (colIdx i (1 : Fin 4)).val % 4 = 1 := by
    rw [colIdx_row]
    rfl
  simp [hr]

theorem mixColumns_col2 (s : Block) (i : Fin 16) :
    mixColumns s (colIdx i 2) =
      s (colIdx i 0) ^^^ s (colIdx i 1) ^^^ gm2 (s (colIdx i 2)) ^^^ gm3 (s (colIdx i 3)) := by
  unfold mixColumns
  dsimp only
  rw [colIdx_colIdx, colIdx_colIdx, colIdx_colIdx, colIdx_colIdx]
  have hr : (colIdx i (2 : Fin 4)).val % 4 = 2 := by
    rw [colIdx_row]
    rfl
  simp [hr]

theorem mixColumns_col3 (s : Block) (i : Fin 16) :
    mixColumns s (colIdx i 3) =
      gm3 (s (colIdx i 0)) ^^^ s (colIdx i 1) ^^^ s (colIdx i 2) ^^^ gm2 (s (colIdx i 3)) := by
  unfold mixColumns
  dsimp only
  rw [colIdx_colIdx, colIdx_colIdx, colIdx_colIdx, colIdx_colIdx]
  have hr : (colIdx i (3 : Fin 4)).val % 4 = 3 := by
    rw [colIdx_row]
    rfl
  simp [hr]

/-- InvMixColumns inverts MixColumns on byte-valued states. -/
theorem invMixColumns_mixColumns (s : Block) (h : BytesInRange s) :
    invMixColumns (mixColumns s) = s := by
  funext i
  show invMixColumns (mixColumns s) i = s i
  unfold invMixColumns
  dsimp only
  rw [mixColumns_col0, mixColumns_col1, mixColumns_col2, mixColumns_col3]
  split_ifs with h0 h1 h2
  · rw [imc_mc_row0 _ _ _ _ (h _) (h _) (h _) (h _)]
    apply congrArg s
    apply Fin.ext
    unfold colIdx
    simp only []
    omega
  · rw [imc_mc_row1 _ _ _ _ (h _) (h _) (h _) (h _)]
    apply congrArg s
    apply Fin.ext
    unfold colIdx
    simp only []
    omega
  · rw [imc_mc_row2 _ _ _ _ (h _) (h _) (h _) (h _)]
    apply congrArg s
    apply Fin.ext
    unfold colIdx
    simp only []
    omega
  · rw [imc_mc_row3 _ _ _ _ (h _) (h _) (h _) (h _)]
    apply congrArg s
    apply Fin.ext
    unfold colIdx
    simp only []
    omega
/-! ## The equivalent-inverse key schedule and cipher inversion -/

/-- Non-final rounds chained over a list of round keys. -/
def roundChain (enc : Bool) (ks : List Block) (s : Block) : Block :=
  ks.foldl (fun st k => vaes enc false k st) s

theorem roundChain_append_single (enc : Bool) (l : List Block) (k : Block) (s : Block) :
    roundChain enc (l ++ [k]) s = vaes enc false k (roundChain enc l s) := by
  unfold roundChain
  rw [List.foldl_append]
  rfl

theorem xor3_bytes {a b c : Block} (ha : BytesInRange a) (hb : BytesInRange b)
    (hc : BytesInRange c) : BytesInRange (xor3 a b c) :=
  fun i => xor_lt_256 (hb i) (xor_lt_256 (ha i) (hc i))

/-- One decryption round with the InvMixColumns-transformed key undoes
one encryption round, on the SubBytes/ShiftRows-conjugated state. -/
theorem dec_round_step (k Y : Block) (hk : BytesInRange k) :
    vaes false false (invMixColumns k) (subBytes (shiftRows (vaes true false k Y))) =
      subBytes (shiftRows Y) := by
  have hW : BytesInRange (vaes true false k Y) := vaes_bytes true false k Y hk
  have h1 : invShiftRows (subBytes (shiftRows (vaes true false k Y))) =
      subBytes (vaes true false k Y) := by
    rw [invShiftRows_subBytes, invShiftRows_shiftRows]
  show xorB (invMixColumns (invSubBytes (invShiftRows (subBytes (shiftRows
    (vaes true false k Y)))))) (invMixColumns k) = subBytes (shiftRows Y)
  rw [h1, invSubBytes_subBytes _ hW]
  have h2 : vaes true false k Y = xorB (mixColumns (subBytes (shiftRows Y))) k := rfl
  rw [h2, invMixColumns_xorB, invMixColumns_mixColumns _ (subBytes_bytes _)]
  funext i
  show (subBytes (shiftRows Y) i ^^^ invMixColumns k i) ^^^ invMixColumns k i =
    subBytes (shiftRows Y) i
  rw [Nat.xor_cancel_right]

/-- The final decryption round undoes the SubBytes/ShiftRows pair. -/
theorem dec_last_step (dk Y : Block) (hY : BytesInRange Y) :
    vaes false true dk (subBytes (shiftRows Y)) = xorB Y dk := by
  show xorB (invSubBytes (invShiftRows (subBytes (shiftRows Y)))) dk = xorB Y dk
  rw [invShiftRows_subBytes, invShiftRows_shiftRows, invSubBytes_subBytes _ hY]

/-- XORing the last encryption round key into the last encryption
round output recovers the conjugated state. -/
theorem enc_last_cancel (k Y : Block) :
    xorB k (vaes true true k Y) = subBytes (shiftRows Y) := by
  funext i
  show k i ^^^ (subBytes (shiftRows Y) i ^^^ k i) = subBytes (shiftRows Y) i
  rw [Nat.xor_comm (subBytes (shiftRows Y) i) (k i), Nat.xor_cancel_left]

theorem xor3_cancel (a tw L : Block) : xor3 a tw (xorB tw L) = xorB a L := by
  funext i
  show tw i ^^^ (a i ^^^ (tw i ^^^ L i)) = a i ^^^ L i
  have h : tw i ^^^ (a i ^^^ (tw i ^^^ L i)) = (tw i ^^^ tw i) ^^^ (a i ^^^ L i) := by ac_rfl
  rw [h, Nat.xor_self, Nat.zero_xor]

theorem final_cancel (k tw d : Block) : xorB tw (xorB (xor3 k tw d) k) = d := by
  funext i
  show tw i ^^^ ((tw i ^^^ (k i ^^^ d i)) ^^^ k i) = d i
  have h : tw i ^^^ ((tw i ^^^ (k i ^^^ d i)) ^^^ k i) =
      (tw i ^^^ tw i) ^^^ ((k i ^^^ k i) ^^^ d i) := by ac_rfl
  rw [h, Nat.xor_self, Nat.xor_self, Nat.zero_xor, Nat.zero_xor]

/-- Chained cancellation: decryption rounds with the reversed,
InvMixColumns-transformed key list undo the encryption rounds. -/
theorem chain_cancel (ks : List Block) (s : Block) (hks : ∀ k ∈ ks, BytesInRange k) :
    roundChain false ((ks.map invMixColumns).reverse)
      (subBytes (shiftRows (roundChain true ks s))) = subBytes (shiftRows s) := by
  induction ks generalizing s with
  | nil => rfl
  | cons k rest ih =>
    have hk : BytesInRange k := hks k (by simp)
    have hrest : ∀ k' ∈ rest, BytesInRange k' := fun k' h' => hks k' (by simp [h'])
    rw [List.map_cons, List.reverse_cons, roundChain_append_single]
    have henc : roundChain true (k :: rest) s = roundChain true rest (vaes true false k s) := rfl
    rw [henc, ih _ hrest, dec_round_step k s hk]

/-- The `crypto_aes_ctx` layout used by the entry points: the
encryption round keys at the start, the decryption round keys 240
bytes later (reached by the `add $240, KEY` on the decryption path),
and the key length at offset 480. -/
structure AesCtx where
  key_enc : Nat → Block
  key_dec : Nat → Block
  key_length : Nat

/-- The equivalent-inverse-cipher decryption key schedule that the
`vaesdec`-based decryption path requires (and which the kernel's AES-NI
key expansion provides): decryption key 0 is encryption key `nr`,
decryption keys `1 .. nr-1` are the InvMixColumns transforms of
encryption keys `nr-1 .. 1`, and decryption key `nr` is encryption
key 0. -/
def equivInvKey (keys : Nat → Block) (nr : Nat) (i : Nat) : Block :=
  if i = 0 then keys nr
  else if i < nr then invMixColumns (keys (nr - i))
  else if i = nr then keys 0
  else keys i

/-- A valid key schedule context: a supported key length, byte-valued
round keys, and a decryption key area that holds the
equivalent-inverse schedule of the encryption key area. -/
def ValidCtx (ctx : AesCtx) : Prop :=
  (ctx.key_length = 16 ∨ ctx.key_length = 24 ∨ ctx.key_length = 32) ∧
  (∀ i, i ≤ 14 → BytesInRange (ctx.key_enc i)) ∧
  (∀ i, i ≤ numRounds ctx.key_length →
    ctx.key_dec i = equivInvKey ctx.key_enc (numRounds ctx.key_length) i)

instance (ctx : AesCtx) : Decidable (ValidCtx ctx) := by
  unfold ValidCtx
  infer_instance

/-- `_aes_crypt` with key length 16 unfolds to a last round on top of
the chain of keys 1..9. -/
theorem aesCrypt_chain16 (enc : Bool) (keys : Nat → Block) (tw d : Block) :
    aesCrypt enc keys 16 tw d =
      xorB tw (vaes enc true (keys 10)
        (roundChain enc [keys 1, keys 2, keys 3, keys 4, keys 5, keys 6, keys 7, keys 8, keys 9] (xor3 (keys 0) tw d))) := rfl

/-- `_aes_crypt` with key length 24 unfolds to a last round on top of
the chain of keys 1..11. -/
theorem aesCrypt_chain24 (enc : Bool) (keys : Nat → Block) (tw d : Block) :
    aesCrypt enc keys 24 tw d =
      xorB tw (vaes enc true (keys 12)
        (roundChain enc [keys 1, keys 2, keys 3, keys 4, keys 5, keys 6, keys 7, keys 8, keys 9, keys 10, keys 11] (xor3 (keys 0) tw d))) := rfl

/-- `_aes_crypt` with key length 32 unfolds to a last round on top of
the chain of keys 1..13. -/
theorem aesCrypt_chain32 (enc : Bool) (keys : Nat → Block) (tw d : Block) :
    aesCrypt enc keys 32 tw d =
      xorB tw (vaes enc true (keys 14)
        (roundChain enc [keys 1, keys 2, keys 3, keys 4, keys 5, keys 6, keys 7, keys 8, keys 9, keys 10, keys 11, keys 12, keys 13] (xor3 (keys 0) tw d))) := rfl

/-- Decryption with a valid equivalent-inverse key schedule inverts
encryption, per block, for each supported key length. -/
theorem aesCrypt_dec_enc (ctx : AesCtx) (tw d : Block) (hv : ValidCtx ctx)
    (htw : BytesInRange tw) (hd : BytesInRange d) :
    aesCrypt false ctx.key_dec ctx.key_length tw
      (aesCrypt true ctx.key_enc ctx.key_length tw d) = d := by
  obtain ⟨hlen, hb, hdk⟩ := hv
  rcases hlen with h | h | h
  · have hnr : numRounds ctx.key_length = 10 := by rw [h]; norm_num [numRounds]
    have e0 : ctx.key_dec 0 = ctx.key_enc 10 := by
      have h0 := hdk 0 (by rw [hnr]; omega)
      rw [hnr] at h0
      simpa [equivInvKey] using h0
    have e1 : ctx.key_dec 1 = invMixColumns (ctx.key_enc 9) := by
      have h0 := hdk 1 (by rw [hnr]; omega)
      rw [hnr] at h0
      simpa [equivInvKey] using h0
    have e2 : ctx.key_dec 2 = invMixColumns (ctx.key_enc 8) := by
      have h0 := hdk 2 (by rw [hnr]; omega)
      rw [hnr] at h0
      simpa [equivInvKey] using h0
    have e3 : ctx.key_dec 3 = invMixColumns (ctx.key_enc 7) := by
      have h0 := hdk 3 (by rw [hnr]; omega)
      rw [hnr] at h0
      simpa [equivInvKey] using h0
    have e4 : ctx.key_dec 4 = invMixColumns (ctx.key_enc 6) := by
      have h0 := hdk 4 (by rw [hnr]; omega)
      rw [hnr] at h0
      simpa [equivInvKey] using h0
    have e5 : ctx.key_dec 5 = invMixColumns (ctx.key_enc 5) := by
      have h0 := hdk 5 (by rw [hnr]; omega)
      rw [hnr] at h0
      simpa [equivInvKey] using h0
    have e6 : ctx.key_dec 6 = invMixColumns (ctx.key_enc 4) := by
      have h0 := hdk 6 (by rw [hnr]; omega)
      rw [hnr] at h0
      simpa [equivInvKey] using h0
    have e7 : ctx.key_dec 7 = invMixColumns (ctx.key_enc 3) := by
      have h0 := hdk 7 (by rw [hnr]; omega)
      rw [hnr] at h0
      simpa [equivInvKey] using h0
    have e8 : ctx.key_dec 8 = invMixColumns (ctx.key_enc 2) := by
      have h0 := hdk 8 (by rw [hnr]; omega)
      rw [hnr] at h0
      simpa [equivInvKey] using h0
    have e9 : ctx.key_dec 9 = invMixColumns (ctx.key_enc 1) := by
      have h0 := hdk 9 (by rw [hnr]; omega)
      rw [hnr] at h0
      simpa [equivInvKey] using h0
    have eNR : ctx.key_dec 10 = ctx.key_enc 0 := by
      have h0 := hdk 10 (by rw [hnr])
      rw [hnr] at h0
      simpa [equivInvKey] using h0
    have hY0 : BytesInRange (xor3 (ctx.key_enc 0) tw d) :=
      xor3_bytes (hb 0 (by omega)) htw hd
    have hks : ∀ k ∈ ([ctx.key_enc 1, ctx.key_enc 2, ctx.key_enc 3, ctx.key_enc 4, ctx.key_enc 5, ctx.key_enc 6, ctx.key_enc 7, ctx.key_enc 8, ctx.key_enc 9] : List Block), BytesInRange k := by
      intro k hkmem
      fin_cases hkmem <;> exact hb _ (by omega)
    have hlist : ([ctx.key_dec 1, ctx.key_dec 2, ctx.key_dec 3, ctx.key_dec 4, ctx.key_dec 5, ctx.key_dec 6, ctx.key_dec 7, ctx.key_dec 8, ctx.key_dec 9] : List Block) =
        (([ctx.key_enc 1, ctx.key_enc 2, ctx.key_enc 3, ctx.key_enc 4, ctx.key_enc 5, ctx.key_enc 6, ctx.key_enc 7, ctx.key_enc 8, ctx.key_enc 9] : List Block).map invMixColumns).reverse := by
      simp only [List.map_cons, List.map_nil, List.reverse_cons, List.reverse_nil,
        List.nil_append, List.cons_append]
      rw [e1, e2, e3, e4, e5, e6, e7, e8, e9]
    rw [h, aesCrypt_chain16, aesCrypt_chain16, e0, xor3_cancel, enc_last_cancel, hlist,
      chain_cancel _ _ hks, dec_last_step _ _ hY0, eNR, final_cancel]
  · have hnr : numRounds ctx.key_length = 12 := by rw [h]; norm_num [numRounds]
    have e0 : ctx.key_dec 0 = ctx.key_enc 12 := by
      have h0 := hdk 0 (by rw [hnr]; omega)
      rw [hnr] at h0
      simpa [equivInvKey] using h0
    have e1 : ctx.key_dec 1 = invMixColumns (ctx.key_enc 11) := by
      have h0 := hdk 1 (by rw [hnr]; omega)
      rw [hnr] at h0
      simpa [equivInvKey] using h0
    have e2 : ctx.key_dec 2 = invMixColumns (ctx.key_enc 10) := by
      have h0 := hdk 2 (by rw [hnr]; omega)
      rw [hnr] at h0
      simpa [equivInvKey] using h0
    have e3 : ctx.key_dec 3 = invMixColumns (ctx.key_enc 9) := by
      have h0 := hdk 3 (by rw [hnr]; omega)
      rw [hnr] at h0
      simpa [equivInvKey] using h0
    have e4 : ctx.key_dec 4 = invMixColumns (ctx.key_enc 8) := by
      have h0 := hdk 4 (by rw [hnr]; omega)
      rw [hnr] at h0
      simpa [equivInvKey] using h0
    have e5 : ctx.key_dec 5 = invMixColumns (ctx.key_enc 7) := by
      have h0 := hdk 5 (by rw [hnr]; omega)
      rw [hnr] at h0
      simpa [equivInvKey] using h0
    have e6 : ctx.key_dec 6 = invMixColumns (ctx.key_enc 6) := by
      have h0 := hdk 6 (by rw [hnr]; omega)
      rw [hnr] at h0
      simpa [equivInvKey] using h0
    have e7 : ctx.key_dec 7 = invMixColumns (ctx.key_enc 5) := by
      have h0 := hdk 7 (by rw [hnr]; omega)
      rw [hnr] at h0
      simpa [equivInvKey] using h0
    have e8 : ctx.key_dec 8 = invMixColumns (ctx.key_enc 4) := by
      have h0 := hdk 8 (by rw [hnr]; omega)
      rw [hnr] at h0
      simpa [equivInvKey] using h0
    have e9 : ctx.key_dec 9 = invMixColumns (ctx.key_enc 3) := by
      have h0 := hdk 9 (by rw [hnr]; omega)
      rw [hnr] at h0
      simpa [equivInvKey] using h0
    have e10 : ctx.key_dec 10 = invMixColumns (ctx.key_enc 2) := by
      have h0 := hdk 10 (by rw [hnr]; omega)
      rw [hnr] at h0
      simpa [equivInvKey] using h0
    have e11 : ctx.key_dec 11 = invMixColumns (ctx.key_enc 1) := by
      have h0 := hdk 11 (by rw [hnr]; omega)
      rw [hnr] at h0
      simpa [equivInvKey] using h0
    have eNR : ctx.key_dec 12 = ctx.key_enc 0 := by
      have h0 := hdk 12 (by rw [hnr])
      rw [hnr] at h0
      simpa [equivInvKey] using h0
    have hY0 : BytesInRange (xor3 (ctx.key_enc 0) tw d) :=
      xor3_bytes (hb 0 (by omega)) htw hd
    have hks : ∀ k ∈ ([ctx.key_enc 1, ctx.key_enc 2, ctx.key_enc 3, ctx.key_enc 4, ctx.key_enc 5, ctx.key_enc 6, ctx.key_enc 7, ctx.key_enc 8, ctx.key_enc 9, ctx.key_enc 10, ctx.key_enc 11] : List Block), BytesInRange k := by
      intro k hkmem
      fin_cases hkmem <;> exact hb _ (by omega)
    have hlist : ([ctx.key_dec 1, ctx.key_dec 2, ctx.key_dec 3, ctx.key_dec 4, ctx.key_dec 5, ctx.key_dec 6, ctx.key_dec 7, ctx.key_dec 8, ctx.key_dec 9, ctx.key_dec 10, ctx.key_dec 11] : List Block) =
        (([ctx.key_enc 1, ctx.key_enc 2, ctx.key_enc 3, ctx.key_enc 4, ctx.key_enc 5, ctx.key_enc 6, ctx.key_enc 7, ctx.key_enc 8, ctx.key_enc 9, ctx.key_enc 10, ctx.key_enc 11] : List Block).map invMixColumns).reverse := by
      simp only [List.map_cons, List.map_nil, List.reverse_cons, List.reverse_nil,
        List.nil_append, List.cons_append]
      rw [e1, e2, e3, e4, e5, e6, e7, e8, e9, e10, e11]
    rw [h, aesCrypt_chain24, aesCrypt_chain24, e0, xor3_cancel, enc_last_cancel, hlist,
      chain_cancel _ _ hks, dec_last_step _ _ hY0, eNR, final_cancel]
  · have hnr : numRounds ctx.key_length = 14 := by rw [h]; norm_num [numRounds]
    have e0 : ctx.key_dec 0 = ctx.key_enc 14 := by
      have h0 := hdk 0 (by rw [hnr]; omega)
      rw [hnr] at h0
      simpa [equivInvKey] using h0
    have e1 : ctx.key_dec 1 = invMixColumns (ctx.key_enc 13) := by
      have h0 := hdk 1 (by rw [hnr]; omega)
      rw [hnr] at h0
      simpa [equivInvKey] using h0
    have e2 : ctx.key_dec 2 = invMixColumns (ctx.key_enc 12) := by
      have h0 := hdk 2 (by rw [hnr]; omega)
      rw [hnr] at h0
      simpa [equivInvKey] using h0
    have e3 : ctx.key_dec 3 = invMixColumns (ctx.key_enc 11) := by
      have h0 := hdk 3 (by rw [hnr]; omega)
      rw [hnr] at h0
      simpa [equivInvKey] using h0
    have e4 : ctx.key_dec 4 = invMixColumns (ctx.key_enc 10) := by
      have h0 := hdk 4 (by rw [hnr]; omega)
      rw [hnr] at h0
      simpa [equivInvKey] using h0
    have e5 : ctx.key_dec 5 = invMixColumns (ctx.key_enc 9) := by
      have h0 := hdk 5 (by rw [hnr]; omega)
      rw [hnr] at h0
      simpa [equivInvKey] using h0
    have e6 : ctx.key_dec 6 = invMixColumns (ctx.key_enc 8) := by
      have h0 := hdk 6 (by rw [hnr]; omega)
      rw [hnr] at h0
      simpa [equivInvKey] using h0
    have e7 : ctx.key_dec 7 = invMixColumns (ctx.key_enc 7) := by
      have h0 := hdk 7 (by rw [hnr]; omega)
      rw [hnr] at h0
      simpa [equivInvKey] using h0
    have e8 : ctx.key_dec 8 = invMixColumns (ctx.key_enc 6) := by
      have h0 := hdk 8 (by rw [hnr]; omega)
      rw [hnr] at h0
      simpa [equivInvKey] using h0
    have e9 : ctx.key_dec 9 = invMixColumns (ctx.key_enc 5) := by
      have h0 := hdk 9 (by rw [hnr]; omega)
      rw [hnr] at h0
      simpa [equivInvKey] using h0
    have e10 : ctx.key_dec 10 = invMixColumns (ctx.key_enc 4) := by
      have h0 := hdk 10 (by rw [hnr]; omega)
      rw [hnr] at h0
      simpa [equivInvKey] using h0
    have e11 : ctx.key_dec 11 = invMixColumns (ctx.key_enc 3) := by
      have h0 := hdk 11 (by rw [hnr]; omega)
      rw [hnr] at h0
      simpa [equivInvKey] using h0
    have e12 : ctx.key_dec 12 = invMixColumns (ctx.key_enc 2) := by
      have h0 := hdk 12 (by rw [hnr]; omega)
      rw [hnr] at h0
      simpa [equivInvKey] using h0
    have e13 : ctx.key_dec 13 = invMixColumns (ctx.key_enc 1) := by
      have h0 := hdk 13 (by rw [hnr]; omega)
      rw [hnr] at h0
      simpa [equivInvKey] using h0
    have eNR : ctx.key_dec 14 = ctx.key_enc 0 := by
      have h0 := hdk 14 (by rw [hnr])
      rw [hnr] at h0
      simpa [equivInvKey] using h0
    have hY0 : BytesInRange (xor3 (ctx.key_enc 0) tw d) :=
      xor3_bytes (hb 0 (by omega)) htw hd
    have hks : ∀ k ∈ ([ctx.key_enc 1, ctx.key_enc 2, ctx.key_enc 3, ctx.key_enc 4, ctx.key_enc 5, ctx.key_enc 6, ctx.key_enc 7, ctx.key_enc 8, ctx.key_enc 9, ctx.key_enc 10, ctx.key_enc 11, ctx.key_enc 12, ctx.key_enc 13] : List Block), BytesInRange k := by
      intro k hkmem
      fin_cases hkmem <;> exact hb _ (by omega)
    have hlist : ([ctx.key_dec 1, ctx.key_dec 2, ctx.key_dec 3, ctx.key_dec 4, ctx.key_dec 5, ctx.key_dec 6, ctx.key_dec 7, ctx.key_dec 8, ctx.key_dec 9, ctx.key_dec 10, ctx.key_dec 11, ctx.key_dec 12, ctx.key_dec 13] : List Block) =
        (([ctx.key_enc 1, ctx.key_enc 2, ctx.key_enc 3, ctx.key_enc 4, ctx.key_enc 5, ctx.key_enc 6, ctx.key_enc 7, ctx.key_enc 8, ctx.key_enc 9, ctx.key_enc 10, ctx.key_enc 11, ctx.key_enc 12, ctx.key_enc 13] : List Block).map invMixColumns).reverse := by
      simp only [List.map_cons, List.map_nil, List.reverse_cons, List.reverse_nil,
        List.nil_append, List.cons_append]
      rw [e1, e2, e3, e4, e5, e6, e7, e8, e9, e10, e11, e12, e13]
    rw [h, aesCrypt_chain32, aesCrypt_chain32, e0, xor3_cancel, enc_last_cancel, hlist,
      chain_cancel _ _ hks, dec_last_step _ _ hY0, eNR, final_cancel]

/-! ## C5: the XTS per-block construction -/

/-- The plain AES cipher under the supplied round keys, as the
specification words it: the first round-key addition as its own step,
followed by the round loop. -/
def aesCipher (enc : Bool) (keys : Nat → Block) (klen : Nat) (s : Block) : Block :=
  aesRoundsGeneric enc keys (numRounds klen) (xorB s (keys 0))

/-- **C5.** For every block `d` and tweak `tw`, the tweaked per-block
primitive `_aes_crypt` computes `Cipher(d XOR tw) XOR tw`, where
`Cipher` is the plain AES encryption or decryption under the supplied
round keys; and the fused three-way XOR of round key 0, tweak, and
data at entry — in both its `vpternlogd $0x96` (`USE_AVX10`) and
two-`vpxor` forms — produces a result identical to performing the
tweak XOR and the cipher's first round-key addition as two separate
steps. -/
theorem aes_crypt_xts_construction (enc : Bool) (keys : Nat → Block) (klen : Nat)
    (tw d : Block) (hk : klen = 16 ∨ klen = 24 ∨ klen = 32) :
    aesCrypt enc keys klen tw d = xorB (aesCipher enc keys klen (xorB d tw)) tw ∧
    xor3Fused (keys 0) tw d = xorB (xorB d tw) (keys 0) ∧
    xor3 (keys 0) tw d = xorB (xorB d tw) (keys 0) := by
  have h2 : xor3 (keys 0) tw d = xorB (xorB d tw) (keys 0) := by
    funext i
    show tw i ^^^ (keys 0 i ^^^ d i) = (d i ^^^ tw i) ^^^ keys 0 i
    ac_rfl
  refine ⟨?_, ?_, h2⟩
  · have h1 := (aes_crypt_round_count enc keys klen tw d hk).2
    have h3 : ∀ X : Block, xorB tw X = xorB X tw := fun X => funext fun i => Nat.xor_comm _ _
    rw [h1, h2, h3]
    rfl
  · funext i
    show ternlog96 (keys 0 i) (tw i) (d i) = (d i ^^^ tw i) ^^^ keys 0 i
    rw [ternlog96_eq_xor]
    ac_rfl

/-- Witness for C5 at a concrete direction, key schedule, key length,
tweak and block. -/
theorem aes_crypt_xts_construction_witness :
    ((16 : Nat) = 16 ∨ (16 : Nat) = 24 ∨ (16 : Nat) = 32) ∧
    (aesCrypt true zeroKeys 16 zeroBlock zeroBlock =
        xorB (aesCipher true zeroKeys 16 (xorB zeroBlock zeroBlock)) zeroBlock ∧
      xor3Fused (zeroKeys 0) zeroBlock zeroBlock =
        xorB (xorB zeroBlock zeroBlock) (zeroKeys 0) ∧
      xor3 (zeroKeys 0) zeroBlock zeroBlock =
        xorB (xorB zeroBlock zeroBlock) (zeroKeys 0)) :=
  ⟨Or.inl rfl,
    aes_crypt_xts_construction true zeroKeys 16 zeroBlock zeroBlock (Or.inl rfl)⟩

/-! ## `_aes_xts_crypt`: the XTS driver (VL = 16, `!USE_AVX10`) -/

/-- A 128-bit tweak value as the 16-byte content of an xmm register /
the caller's `tweak` buffer, little-endian: byte `i` holds bits
`8i .. 8i+7`. -/
def tweakBlock (t : Nat) : Block := fun i => t / 2 ^ (8 * i.val) % 256

theorem tweakBlock_bytes (t : Nat) : BytesInRange (tweakBlock t) :=
  fun _ => Nat.mod_lt _ (by norm_num)

attribute [irreducible] tweakBlock

/-- Load 16 bytes from a byte list into a 128-bit register (`vmovdqu`). -/
def loadBlock (l : List Nat) : Block := fun i => l.getD i.val 0

/-- Store a 128-bit register as 16 bytes (`vmovdqu`). -/
def storeBlock (b : Block) : List Nat := List.ofFn fun i : Fin 16 => b i

/-- One tweaked-block en/decryption at the byte-list level:
load, `_aes_crypt`, store. -/
def cryptBlockBytes (enc : Bool) (keys : Nat → Block) (klen : Nat) (t : Nat)
    (l : List Nat) : List Nat :=
  storeBlock (aesCrypt enc keys klen (tweakBlock t) (loadBlock l))

theorem aesCrypt_bytes (enc : Bool) (keys : Nat → Block) (klen : Nat) (tw d : Block)
    (hk : ∀ i, i ≤ 14 → BytesInRange (keys i)) (htw : BytesInRange tw) :
    BytesInRange (aesCrypt enc keys klen tw d) := by
  unfold aesCrypt
  dsimp only
  split_ifs <;>
    exact xorB_bytes htw (vaes_bytes _ _ _ _ (hk _ (by omega)))

attribute [irreducible] aesCrypt

/-- The main loop (`.Lmain_loop`): en/decrypt `4*VL = 64` bytes per
iteration while `LEN` has not gone negative, with the four tweaks
`t, t·x, t·x², t·x³` (for `VL = 16` the `_tweak_step_mulx` path
computes the next set serially from `TWEAK3`, i.e. the running tweak
advances by `x⁴` per iteration).  Returns the produced output, the
remaining source, the remaining `LEN`, and the tweak register. -/
def cryptChunk4 (enc : Bool) (keys : Nat → Block) (klen : Nat)
    (src : List Nat) (t : Nat) : List Nat :=
  cryptBlockBytes enc keys klen t (src.take 16) ++
  (cryptBlockBytes enc keys klen (nextTweak t) ((src.drop 16).take 16) ++
  (cryptBlockBytes enc keys klen (nextTweak (nextTweak t)) ((src.drop 32).take 16) ++
  cryptBlockBytes enc keys klen (nextTweak (nextTweak (nextTweak t)))
    ((src.drop 48).take 16)))

def mainLoopIter (enc : Bool) (keys : Nat → Block) (klen : Nat) :
    Nat → List Nat → Nat → Nat → List Nat × List Nat × Nat × Nat
  | 0, src, len, t => ([], src, len, t)
  | n + 1, src, len, t =>
    let rest := mainLoopIter enc keys klen n (src.drop 64) (len - 64)
      (nextTweak (nextTweak (nextTweak (nextTweak t))))
    (cryptChunk4 enc keys klen src t ++ rest.1, rest.2.1, rest.2.2.1, rest.2.2.2)

/-- The main loop (`.Lmain_loop`): en/decrypt `4*VL = 64` bytes per
iteration while `LEN` stays non-negative (64 ≤ len, i.e. exactly
`len / 64` iterations), with the four tweaks `t, t·x, t·x², t·x³`
(for `VL = 16` the `_tweak_step_mulx` path computes the next set
serially from `TWEAK3`, so the running tweak advances by `x⁴` per
iteration).  Returns the produced output, the remaining source, the
remaining `LEN`, and the tweak register. -/
def mainLoop (enc : Bool) (keys : Nat → Block) (klen : Nat)
    (src : List Nat) (len : Nat) (t : Nat) : List Nat × List Nat × Nat × Nat :=
  mainLoopIter enc keys klen (len / 64) src len t

def blockLoopIter (enc : Bool) (keys : Nat → Block) (klen : Nat) :
    Nat → List Nat → Nat → Nat → List Nat × List Nat × Nat × Nat
  | 0, src, len, t => ([], src, len, t)
  | n + 1, src, len, t =>
    let rest := blockLoopIter enc keys klen n (src.drop 16) (len - 16) (nextTweak t)
    (cryptBlockBytes enc keys klen t (src.take 16) ++ rest.1,
      rest.2.1, rest.2.2.1, rest.2.2.2)

/-- The block-at-a-time loop (`.Lblock_at_a_time`): one block per
iteration while `16 ≤ LEN` (i.e. exactly `len / 16` iterations),
advancing the tweak with `_next_tweak`. -/
def blockLoop (enc : Bool) (keys : Nat → Block) (klen : Nat)
    (src : List Nat) (len : Nat) (t : Nat) : List Nat × List Nat × Nat × Nat :=
  blockLoopIter enc keys klen (len / 16) src len t

/-- The `.Lcts_permute_table` constant. -/
def ctsPermuteTable : List Nat :=
  List.replicate 16 0x80 ++ (List.range 16 ++ List.replicate 16 0x80)

/-- `vpshufb src, ctrl`: byte shuffle; a control byte with its high bit
set selects zero, otherwise it indexes a byte of `src` (mod 16). -/
def vpshufb (src ctrl : Block) : Block := fun i =>
  if 128 ≤ ctrl i then 0 else src ⟨ctrl i % 16, by omega⟩

/-- `vpblendvb`: bytewise select by the high bit of the mask byte:
`src2` where set, `src1` where clear. -/
def vpblendvb (mask src2 src1 : Block) : Block := fun i =>
  if 128 ≤ mask i then src2 i else src1 i

/-- The ciphertext-stealing tail (`.Lcts`, `!USE_AVX10` branch).
`src16r` holds the remaining `16 + r` source bytes (the reserved last
full block followed by the trailing partial block), `r = LEN`, and
`tA` is the tweak register `TWEAK0_XMM` on entry.  Computes the
`16 + r` destination bytes: the first store (`vmovdqu %xmm2,
(DST,LEN,1)`) writes bytes `r .. r+15`, of which only the final `r`
survive the second store (`vmovdqu %xmm0, (DST)`) of the re-encrypted
merged block. -/
def ctsStep (enc : Bool) (keys : Nat → Block) (klen : Nat) (src16r : List Nat)
    (r : Nat) (tA : Nat) : List Nat :=
  let tB := nextTweak tA
  let ct0 := if enc then tA else tB
  let ct1 := if enc then tB else tA
  let xmm0 := aesCrypt enc keys klen (tweakBlock ct0) (loadBlock (src16r.take 16))
  let xmm1 := loadBlock ((src16r.drop r).take 16)
  let xmm2 := vpshufb xmm0 (loadBlock ((ctsPermuteTable.drop r).take 16))
  let xmm3 := loadBlock ((ctsPermuteTable.drop (32 - r)).take 16)
  let xmm1s := vpshufb xmm1 xmm3
  let merged := vpblendvb xmm3 xmm0 xmm1s
  let xmm0f := aesCrypt enc keys klen (tweakBlock ct1) merged
  storeBlock xmm0f ++ (storeBlock xmm2).drop (16 - r)

/-- Embedding of `_aes_xts_crypt` for `VL = 16`, `!USE_AVX10`
(the `aes_xts_[en/de]crypt_aesni_avx` entry points): select the
encryption or decryption key area (`add $240, KEY`), reserve one block
when the length is not block-aligned (`.Lneed_cts`), run the main
4-blocks-at-a-time loop, then the block-at-a-time loop, then
ciphertext stealing if a partial block remains.  Returns the
destination bytes and the value stored back through the `tweak`
pointer at `.Ldone` (`TWEAK0_XMM`, which the CTS path leaves at the
tweak of its last full block). -/
def aesXtsCrypt (enc : Bool) (ctx : AesCtx) (src : List Nat) (t : Nat) :
    List Nat × Nat :=
  let klen := ctx.key_length
  let keys := if enc then ctx.key_enc else ctx.key_dec
  let len1 := if src.length % 16 ≠ 0 then src.length - 16 else src.length
  let m := mainLoop enc keys klen src len1 t
  let b := blockLoop enc keys klen m.2.1 m.2.2.1 m.2.2.2
  if b.2.2.1 ≠ 0 then
    (m.1 ++ (b.1 ++ ctsStep enc keys klen b.2.1 b.2.2.1 b.2.2.2), b.2.2.2)
  else
    (m.1 ++ b.1, b.2.2.2)

theorem mainLoop_unfold (enc : Bool) (keys : Nat → Block) (klen : Nat)
    (src : List Nat) (len : Nat) (t : Nat) (h : 64 ≤ len) :
    mainLoop enc keys klen src len t =
      (cryptChunk4 enc keys klen src t ++
        (mainLoop enc keys klen (src.drop 64) (len - 64)
          (nextTweak (nextTweak (nextTweak (nextTweak t))))).1,
       (mainLoop enc keys klen (src.drop 64) (len - 64)
         (nextTweak (nextTweak (nextTweak (nextTweak t))))).2) := by
  unfold mainLoop
  have h1 : len / 64 = (len - 64) / 64 + 1 := by omega
  rw [h1]
  rfl

theorem mainLoop_stop (enc : Bool) (keys : Nat → Block) (klen : Nat)
    (src : List Nat) (len : Nat) (t : Nat) (h : len < 64) :
    mainLoop enc keys klen src len t = ([], src, len, t) := by
  unfold mainLoop
  have h1 : len / 64 = 0 := by omega
  rw [h1]
  rfl

theorem blockLoop_unfold (enc : Bool) (keys : Nat → Block) (klen : Nat)
    (src : List Nat) (len : Nat) (t : Nat) (h : 16 ≤ len) :
    blockLoop enc keys klen src len t =
      (cryptBlockBytes enc keys klen t (src.take 16) ++
        (blockLoop enc keys klen (src.drop 16) (len - 16) (nextTweak t)).1,
       (blockLoop enc keys klen (src.drop 16) (len - 16) (nextTweak t)).2) := by
  unfold blockLoop
  have h1 : len / 16 = (len - 16) / 16 + 1 := by omega
  rw [h1]
  rfl

theorem blockLoop_stop (enc : Bool) (keys : Nat → Block) (klen : Nat)
    (src : List Nat) (len : Nat) (t : Nat) (h : len < 16) :
    blockLoop enc keys klen src len t = ([], src, len, t) := by
  unfold blockLoop
  have h1 : len / 16 = 0 := by omega
  rw [h1]
  rfl

/-- The 4-blocks-per-iteration main loop followed by the
block-at-a-time loop processes exactly the blocks that the
block-at-a-time loop alone would process, with the same continuation
state. -/
theorem loops_eq (enc : Bool) (keys : Nat → Block) (klen : Nat) (len : Nat) :
    ∀ (src : List Nat) (t : Nat),
      (mainLoop enc keys klen src len t).1 ++
          (blockLoop enc keys klen (mainLoop enc keys klen src len t).2.1
            (mainLoop enc keys klen src len t).2.2.1
            (mainLoop enc keys klen src len t).2.2.2).1 =
        (blockLoop enc keys klen src len t).1 ∧
      (blockLoop enc keys klen (mainLoop enc keys klen src len t).2.1
          (mainLoop enc keys klen src len t).2.2.1
          (mainLoop enc keys klen src len t).2.2.2).2 =
        (blockLoop enc keys klen src len t).2 := by
  induction len using Nat.strong_induction_on with
  | _ len ih =>
    intro src t
    by_cases h : 64 ≤ len
    · obtain ⟨ih1, ih2⟩ := ih (len - 64) (by omega) (src.drop 64)
        (nextTweak (nextTweak (nextTweak (nextTweak t))))
      rw [mainLoop_unfold enc keys klen src len t h]
      have hb : blockLoop enc keys klen src len t =
          (cryptBlockBytes enc keys klen t (src.take 16) ++
            (cryptBlockBytes enc keys klen (nextTweak t) ((src.drop 16).take 16) ++
              (cryptBlockBytes enc keys klen (nextTweak (nextTweak t))
                  ((src.drop 32).take 16) ++
                (cryptBlockBytes enc keys klen (nextTweak (nextTweak (nextTweak t)))
                    ((src.drop 48).take 16) ++
                  (blockLoop enc keys klen (src.drop 64) (len - 64)
                    (nextTweak (nextTweak (nextTweak (nextTweak t))))).1))),
           (blockLoop enc keys klen (src.drop 64) (len - 64)
             (nextTweak (nextTweak (nextTweak (nextTweak t))))).2) := by
        rw [blockLoop_unfold enc keys klen src len t (by omega),
          blockLoop_unfold enc keys klen (src.drop 16) (len - 16) (nextTweak t) (by omega),
          blockLoop_unfold enc keys klen ((src.drop 16).drop 16) (len - 16 - 16)
            (nextTweak (nextTweak t)) (by omega),
          blockLoop_unfold enc keys klen (((src.drop 16).drop 16).drop 16)
            (len - 16 - 16 - 16) (nextTweak (nextTweak (nextTweak t))) (by omega)]
        have hlen4 : len - 16 - 16 - 16 - 16 = len - 64 := by omega
        rw [hlen4]
        simp only [List.drop_drop, List.append_assoc]
      rw [hb]
      constructor
      · unfold cryptChunk4
        simp only [List.append_assoc]
        rw [ih1]
      · exact ih2
    · rw [mainLoop_stop enc keys klen src len t (by omega)]
      exact ⟨rfl, rfl⟩

theorem storeBlock_length (b : Block) : (storeBlock b).length = 16 := by
  unfold storeBlock
  exact List.length_ofFn _

theorem cryptBlockBytes_length (enc : Bool) (keys : Nat → Block) (klen : Nat)
    (t : Nat) (l : List Nat) : (cryptBlockBytes enc keys klen t l).length = 16 :=
  storeBlock_length _

theorem loadBlock_storeBlock (b : Block) : loadBlock (storeBlock b) = b := by
  funext i
  unfold loadBlock storeBlock
  rw [List.getD_eq_getElem?_getD, List.getElem?_ofFn]
  simp [List.ofFnNthVal, i.isLt]

theorem storeBlock_loadBlock (l : List Nat) (hl : l.length = 16) :
    storeBlock (loadBlock l) = l := by
  unfold storeBlock loadBlock
  apply List.ext_getElem
  · simp [hl]
  · intro i h1 h2
    simp only [List.getElem_ofFn]
    rw [List.getD_eq_getElem?_getD, List.getElem?_eq_getElem h2]
    rfl

theorem loadBlock_bytes (l : List Nat) (hb : ∀ b ∈ l, b < 256) :
    BytesInRange (loadBlock l) := by
  intro i
  unfold loadBlock
  rcases h : l[i.val]? with _ | v
  · rw [List.getD_eq_getElem?_getD, h]
    norm_num
  · rw [List.getD_eq_getElem?_getD, h]
    exact hb v (List.getElem?_mem h)

/-- A full-block en/decryption under the opposite direction undoes
`cryptBlockBytes`, given a valid schedule. -/
theorem cryptBlockBytes_dec_enc (ctx : AesCtx) (t : Nat) (l : List Nat)
    (hv : ValidCtx ctx) (hl : l.length = 16) (hb : ∀ b ∈ l, b < 256) :
    cryptBlockBytes false ctx.key_dec ctx.key_length t
      (cryptBlockBytes true ctx.key_enc ctx.key_length t l) = l := by
  unfold cryptBlockBytes
  rw [loadBlock_storeBlock,
    aesCrypt_dec_enc ctx (tweakBlock t) (loadBlock l) hv (tweakBlock_bytes t)
      (loadBlock_bytes l hb)]
  exact storeBlock_loadBlock l hl

/-- State invariants of the block loop: final tweak, remaining length,
remaining source, and output length. -/
theorem blockLoop_spec (enc : Bool) (keys : Nat → Block) (klen : Nat) (len : Nat) :
    ∀ (src : List Nat) (t : Nat),
      (blockLoop enc keys klen src len t).2.2.2 = nextTweak^[len / 16] t ∧
      (blockLoop enc keys klen src len t).2.2.1 = len % 16 ∧
      (blockLoop enc keys klen src len t).2.1 = src.drop (16 * (len / 16)) ∧
      (blockLoop enc keys klen src len t).1.length = 16 * (len / 16) := by
  induction len using Nat.strong_induction_on with
  | _ len ih =>
    intro src t
    by_cases h : 16 ≤ len
    · obtain ⟨ih1, ih2, ih3, ih4⟩ := ih (len - 16) (by omega) (src.drop 16) (nextTweak t)
      rw [blockLoop_unfold enc keys klen src len t h]
      have hdiv : len / 16 = (len - 16) / 16 + 1 := by omega
      have hmod : len % 16 = (len - 16) % 16 := by omega
      refine ⟨?_, ?_, ?_, ?_⟩
      · rw [ih1, hdiv, Function.iterate_succ_apply]
      · rw [ih2, hmod]
      · rw [ih3, List.drop_drop, hdiv]
        congr 1
        omega
      · rw [List.length_append, cryptBlockBytes_length, ih4, hdiv]
        ring
    · rw [blockLoop_stop enc keys klen src len t (by omega)]
      have h1 : len / 16 = 0 := by omega
      have h2 : len % 16 = len := by omega
      rw [h1, h2]
      simp

/-- The canonical (block-at-a-time) form of the driver. -/
def aesXtsCanon (enc : Bool) (ctx : AesCtx) (src : List Nat) (t : Nat) :
    List Nat × Nat :=
  let keys := if enc then ctx.key_enc else ctx.key_dec
  let len1 := if src.length % 16 ≠ 0 then src.length - 16 else src.length
  let b := blockLoop enc keys ctx.key_length src len1 t
  if b.2.2.1 ≠ 0 then
    (b.1 ++ ctsStep enc keys ctx.key_length b.2.1 b.2.2.1 b.2.2.2, b.2.2.2)
  else (b.1, b.2.2.2)

/-- The driver equals its canonical block-at-a-time form (the main
4-block loop merely processes blocks faster). -/
theorem aesXtsCrypt_canon (enc : Bool) (ctx : AesCtx) (src : List Nat) (t : Nat) :
    aesXtsCrypt enc ctx src t = aesXtsCanon enc ctx src t := by
  unfold aesXtsCrypt aesXtsCanon
  obtain ⟨h1, h2⟩ := loops_eq enc (if enc then ctx.key_enc else ctx.key_dec) ctx.key_length
    (if src.length % 16 ≠ 0 then src.length - 16 else src.length) src t
  dsimp only
  rw [← List.append_assoc, h1, h2]

/-- Splitting a block-aligned prefix off the block loop. -/
theorem blockLoop_append (enc : Bool) (keys : Nat → Block) (klen : Nat) (l1 : Nat) :
    ∀ (s1 s2 : List Nat) (l2 t : Nat), s1.length = l1 → l1 % 16 = 0 →
      blockLoop enc keys klen (s1 ++ s2) (l1 + l2) t =
        ((blockLoop enc keys klen s1 l1 t).1 ++
          (blockLoop enc keys klen s2 l2 (nextTweak^[l1 / 16] t)).1,
         (blockLoop enc keys klen s2 l2 (nextTweak^[l1 / 16] t)).2) := by
  induction l1 using Nat.strong_induction_on with
  | _ l1 ih =>
    intro s1 s2 l2 t hlen hmod
    by_cases h : 16 ≤ l1
    · have htake : (s1 ++ s2).take 16 = s1.take 16 :=
        List.take_append_of_le_length (by omega)
      have hdrop : (s1 ++ s2).drop 16 = s1.drop 16 ++ s2 :=
        List.drop_append_of_le_length (by omega)
      have hsub : l1 + l2 - 16 = (l1 - 16) + l2 := by omega
      have hrec := ih (l1 - 16) (by omega) (s1.drop 16) s2 l2 (nextTweak t)
        (by rw [List.length_drop, hlen]) (by omega)
      rw [blockLoop_unfold enc keys klen (s1 ++ s2) (l1 + l2) t (by omega),
        blockLoop_unfold enc keys klen s1 l1 t h, htake, hdrop, hsub, hrec]
      have hq : l1 / 16 = (l1 - 16) / 16 + 1 := by omega
      rw [hq, Function.iterate_succ_apply, List.append_assoc]
    · have hl0 : l1 = 0 := by omega
      subst hl0
      have hs1 : s1 = [] := List.eq_nil_of_length_eq_zero hlen
      subst hs1
      rw [blockLoop_stop enc keys klen [] 0 t (by omega)]
      simp

/-- **C9.** On every terminating path the `.Ldone` store writes
`TWEAK0_XMM` back to the caller's tweak location; when the length is a
multiple of 16 blocks that value is the continuation tweak
`t · x^(len/16)`, while after a ciphertext-stealing call the value
left behind is the tweak `t · x^(len/16 - 1)` that the CTS step itself
consumed for its last full block — not a continuation tweak advanced
past the processed data. -/
theorem tweak_writeback_paths (enc : Bool) (ctx : AesCtx) (src : List Nat) (t : Nat) :
    (src.length % 16 = 0 →
      (aesXtsCrypt enc ctx src t).2 = nextTweak^[src.length / 16] t) ∧
    (src.length % 16 ≠ 0 →
      (aesXtsCrypt enc ctx src t).2 = nextTweak^[src.length / 16 - 1] t) := by
  rw [aesXtsCrypt_canon]
  unfold aesXtsCanon
  dsimp only
  have hsplit : ∀ (c : Prop) [Decidable c] (p q : List Nat) (w : Nat),
      (if c then (p, w) else (q, w)).2 = w := by
    intro c _ p q w
    split <;> rfl
  rw [hsplit]
  constructor
  · intro hr
    have hc : ¬ (src.length % 16 ≠ 0) := by omega
    rw [if_neg hc]
    exact (blockLoop_spec enc (if enc then ctx.key_enc else ctx.key_dec)
      ctx.key_length src.length src t).1
  · intro hr
    rw [if_pos hr]
    rw [(blockLoop_spec enc (if enc then ctx.key_enc else ctx.key_dec)
      ctx.key_length (src.length - 16) src t).1]
    congr 1
    omega

/-- A concrete all-zero key context used by driver-level witnesses. -/
def zeroCtx : AesCtx := ⟨zeroKeys, zeroKeys, 16⟩

/-- Witness for C9 at concrete lengths 32 (aligned) and 17 (CTS). -/
theorem tweak_writeback_paths_witness :
    ((List.replicate 32 (0 : Nat)).length % 16 = 0 ∧
      (aesXtsCrypt true zeroCtx (List.replicate 32 0) 1).2 =
        nextTweak^[(List.replicate 32 (0 : Nat)).length / 16] 1) ∧
    ((List.replicate 17 (0 : Nat)).length % 16 ≠ 0 ∧
      (aesXtsCrypt false zeroCtx (List.replicate 17 0) 1).2 =
        nextTweak^[(List.replicate 17 (0 : Nat)).length / 16 - 1] 1) :=
  ⟨⟨by decide, (tweak_writeback_paths true zeroCtx (List.replicate 32 0) 1).1 (by decide)⟩,
   ⟨by decide, (tweak_writeback_paths false zeroCtx (List.replicate 17 0) 1).2 (by decide)⟩⟩

/-- For block-aligned inputs the driver is the block loop plus the
continuation tweak. -/
theorem aesXtsCrypt_aligned (enc : Bool) (ctx : AesCtx) (s : List Nat) (t : Nat)
    (h : s.length % 16 = 0) :
    aesXtsCrypt enc ctx s t =
      ((blockLoop enc (if enc then ctx.key_enc else ctx.key_dec)
          ctx.key_length s s.length t).1,
       nextTweak^[s.length / 16] t) := by
  rw [aesXtsCrypt_canon]
  unfold aesXtsCanon
  dsimp only
  have hc : ¬ (s.length % 16 ≠ 0) := by omega
  rw [if_neg hc]
  obtain ⟨ht, hr, _, _⟩ := blockLoop_spec enc (if enc then ctx.key_enc else ctx.key_dec)
    ctx.key_length s.length s t
  rw [hr, if_neg hc, ht]

/-- **C6.** When the length is a multiple of 16, the tweak written back
is the input tweak multiplied by x^(length/16), i.e. the tweak for the
next contiguous chunk; consequently processing `s1 ++ s2` in one call
equals processing `s1` and then `s2` in two calls that carry the
written-back tweak forward (in particular 1024 bytes = 512 + 512). -/
theorem tweak_writeback_continuation (enc : Bool) (ctx : AesCtx) (s1 s2 : List Nat)
    (t : Nat) (h1 : s1.length % 16 = 0) (h2 : s2.length % 16 = 0) :
    (aesXtsCrypt enc ctx s1 t).2 = nextTweak^[s1.length / 16] t ∧
    aesXtsCrypt enc ctx (s1 ++ s2) t =
      ((aesXtsCrypt enc ctx s1 t).1 ++
        (aesXtsCrypt enc ctx s2 ((aesXtsCrypt enc ctx s1 t).2)).1,
       (aesXtsCrypt enc ctx s2 ((aesXtsCrypt enc ctx s1 t).2)).2) := by
  constructor
  · rw [aesXtsCrypt_aligned enc ctx s1 t h1]
  · have h12 : (s1 ++ s2).length % 16 = 0 := by
      simp only [List.length_append]
      omega
    rw [aesXtsCrypt_aligned enc ctx (s1 ++ s2) t h12,
      aesXtsCrypt_aligned enc ctx s1 t h1]
    dsimp only
    rw [aesXtsCrypt_aligned enc ctx s2 (nextTweak^[s1.length / 16] t) h2]
    dsimp only
    have hlen : (s1 ++ s2).length = s1.length + s2.length := List.length_append s1 s2
    rw [hlen, blockLoop_append enc (if enc then ctx.key_enc else ctx.key_dec)
      ctx.key_length s1.length s1 s2 s2.length t rfl h1]
    rw [← Function.iterate_add_apply]
    have hq : (s1.length + s2.length) / 16 = s2.length / 16 + s1.length / 16 := by omega
    rw [hq]

/-- Witness for C6: 32 zero bytes split as 16 + 16. -/
theorem tweak_writeback_continuation_witness :
    (List.replicate 16 (0 : Nat)).length % 16 = 0 ∧
    (aesXtsCrypt true zeroCtx (List.replicate 16 0) 1).2 =
      nextTweak^[(List.replicate 16 (0 : Nat)).length / 16] 1 ∧
    aesXtsCrypt true zeroCtx (List.replicate 16 0 ++ List.replicate 16 0) 1 =
      ((aesXtsCrypt true zeroCtx (List.replicate 16 0) 1).1 ++
        (aesXtsCrypt true zeroCtx (List.replicate 16 0)
          ((aesXtsCrypt true zeroCtx (List.replicate 16 0) 1).2)).1,
       (aesXtsCrypt true zeroCtx (List.replicate 16 0)
          ((aesXtsCrypt true zeroCtx (List.replicate 16 0) 1).2)).2) := by
  refine ⟨by decide, ?_, ?_⟩
  · exact (tweak_writeback_continuation true zeroCtx (List.replicate 16 0)
      (List.replicate 16 0) 1 (by decide) (by decide)).1
  · exact (tweak_writeback_continuation true zeroCtx (List.replicate 16 0)
      (List.replicate 16 0) 1 (by decide) (by decide)).2

/-- Closed form of the `.Lcts_permute_table` bytes. -/
theorem ctsTable_getD : ∀ k, k < 48 →
    ctsPermuteTable.getD k 0 =
      if k < 16 then 128 else if k < 32 then k - 16 else 128 := by
  decide

/-- Loading a 16-byte window at offset `n` reads bytes `n + i`. -/
theorem loadBlock_drop_take (l : List Nat) (n : Nat) (i : Fin 16) :
    loadBlock ((l.drop n).take 16) i = l.getD (n + i.val) 0 := by
  unfold loadBlock
  rw [List.getD_eq_getElem?_getD, List.getD_eq_getElem?_getD, List.getElem?_take,
    if_pos i.isLt, List.getElem?_drop]

theorem storeBlock_getD (b : Block) (i : Fin 16) : (storeBlock b).getD i.val 0 = b i :=
  congrFun (loadBlock_storeBlock b) i

/-- The permute-table mask loaded at offset `32 - r`:
`[16-r, …, 15]` followed by `0x80` bytes. -/
theorem cts_mask_eq (r : Nat) (hr1 : 1 ≤ r) (hr2 : r ≤ 15) (i : Fin 16) :
    loadBlock ((ctsPermuteTable.drop (32 - r)).take 16) i =
      if i.val < r then 16 - r + i.val else 128 := by
  rw [loadBlock_drop_take]
  rw [ctsTable_getD ((32 - r) + i.val) (by omega)]
  by_cases h : i.val < r
  · rw [if_neg (by omega), if_pos (by omega), if_pos h]
    omega
  · rw [if_neg (by omega), if_neg (by omega), if_neg h]

/-- The `vpshufb`-then-store of the first `r` output bytes of the last
full block equals taking those bytes directly. -/
theorem cts_tail_eq (x : Block) (r : Nat) (hr1 : 1 ≤ r) (hr2 : r ≤ 15) :
    (storeBlock (vpshufb x (loadBlock ((ctsPermuteTable.drop r).take 16)))).drop (16 - r) =
      (storeBlock x).take r := by
  apply List.ext_getElem
  · rw [List.length_drop, List.length_take, storeBlock_length, storeBlock_length]
    omega
  · intro i h1 h2
    rw [List.length_drop, storeBlock_length] at h1
    rw [List.length_take, storeBlock_length] at h2
    rw [List.getElem_drop, List.getElem_take]
    unfold storeBlock
    rw [List.getElem_ofFn, List.getElem_ofFn]
    unfold vpshufb
    have hc := loadBlock_drop_take ctsPermuteTable r ⟨16 - r + i, by omega⟩
    rw [ctsTable_getD (r + (16 - r + i)) (by omega)] at hc
    have hc1 : ¬ (r + (16 - r + i) < 16) := by omega
    have hc2 : r + (16 - r + i) < 32 := by omega
    rw [if_neg hc1, if_pos hc2] at hc
    have harg : r + (16 - r + i) - 16 = i := by omega
    rw [harg] at hc
    simp only [hc]
    rw [if_neg (by omega)]
    have hmod : i % 16 = i := Nat.mod_eq_of_lt (by omega)
    exact congrArg x (Fin.ext (by simp [hmod]))

/-- Reading the merged (stolen) block: bytes of the trailing partial
source block followed by the tail of the en/decrypted last full block. -/
theorem cts_merged_read (x : Block) (src16r : List Nat) (r : Nat)
    (hr2 : r ≤ 15) (hlen : src16r.length = 16 + r) (i : Fin 16) :
    loadBlock ((src16r.drop 16).take r ++ (storeBlock x).drop r) i =
      if i.val < r then src16r.getD (16 + i.val) 0 else x i := by
  have hA : ((src16r.drop 16).take r).length = r := by
    rw [List.length_take, List.length_drop, hlen]
    omega
  unfold loadBlock
  rw [List.getD_eq_getElem?_getD, List.getElem?_append, hA]
  by_cases h : i.val < r
  · rw [if_pos h, if_pos h, List.getElem?_take, if_pos h, List.getElem?_drop,
      ← List.getD_eq_getElem?_getD]
  · rw [if_neg h, if_neg h, List.getElem?_drop]
    have harg : r + (i.val - r) = i.val := by omega
    rw [harg, ← List.getD_eq_getElem?_getD]
    exact storeBlock_getD x i

/-- The blend of the shifted partial block with the en/decrypted last
full block equals the abstract merged block. -/
theorem cts_merged_eq (x : Block) (src16r : List Nat) (r : Nat)
    (hr1 : 1 ≤ r) (hr2 : r ≤ 15) (hlen : src16r.length = 16 + r) :
    vpblendvb (loadBlock ((ctsPermuteTable.drop (32 - r)).take 16)) x
      (vpshufb (loadBlock ((src16r.drop r).take 16))
        (loadBlock ((ctsPermuteTable.drop (32 - r)).take 16))) =
      loadBlock ((src16r.drop 16).take r ++ (storeBlock x).drop r) := by
  funext i
  rw [cts_merged_read x src16r r hr2 hlen i]
  unfold vpblendvb vpshufb
  simp only [cts_mask_eq r hr1 hr2 i]
  by_cases h : i.val < r
  · simp only [if_pos h]
    rw [if_neg (by omega), if_neg (by omega)]
    have hload := loadBlock_drop_take src16r r ⟨(16 - r + i.val) % 16, by omega⟩
    rw [hload]
    have harg : r + (16 - r + i.val) % 16 = 16 + i.val := by omega
    rw [harg]
  · simp only [if_neg h]
    rw [if_pos (le_refl 128)]

/-- Ciphertext stealing as the specification states it: exactly two
tweaks, the current tweak `tA` and its single-step successor
`tB = tA · x`; encryption en/decrypts the last full block under `tA`
and the merged (stolen) block under `tB`, decryption uses them in the
reversed order.  Written from the specification text, for comparison
with the instruction-level `ctsStep`. -/
def ctsSpecC7 (enc : Bool) (keys : Nat → Block) (klen : Nat) (src16r : List Nat)
    (r tA : Nat) : List Nat :=
  let tB := nextTweak tA
  let firstTweak := if enc then tA else tB
  let secondTweak := if enc then tB else tA
  let e1 := cryptBlockBytes enc keys klen firstTweak (src16r.take 16)
  let merged := (src16r.drop 16).take r ++ e1.drop r
  cryptBlockBytes enc keys klen secondTweak merged ++ e1.take r

/-- **C7.** The ciphertext-stealing tail uses exactly two tweaks: the
current tweak `T_a` and its single-step successor `T_b = T_a · x`
computed by one `_next_tweak`.  Encryption processes the last full
block under `T_a` and the merged (stolen) block under `T_b`;
decryption uses them in the reversed order.  The shuffle/blend
instruction sequence refines the abstract two-tweak specification. -/
theorem ctsStep_eq_spec (enc : Bool) (keys : Nat → Block) (klen : Nat)
    (src16r : List Nat) (r tA : Nat) (hr1 : 1 ≤ r) (hr2 : r ≤ 15)
    (hlen : src16r.length = 16 + r) :
    ctsStep enc keys klen src16r r tA = ctsSpecC7 enc keys klen src16r r tA := by
  unfold ctsStep ctsSpecC7 cryptBlockBytes
  dsimp only
  rw [cts_merged_eq (aesCrypt enc keys klen
      (tweakBlock (if enc then tA else nextTweak tA)) (loadBlock (src16r.take 16)))
      src16r r hr1 hr2 hlen,
    cts_tail_eq (aesCrypt enc keys klen
      (tweakBlock (if enc then tA else nextTweak tA)) (loadBlock (src16r.take 16)))
      r hr1 hr2]

theorem cts_two_tweaks (enc : Bool) (keys : Nat → Block) (klen : Nat)
    (src16r : List Nat) (r tA : Nat) (hr1 : 1 ≤ r) (hr2 : r ≤ 15)
    (hlen : src16r.length = 16 + r) :
    ctsStep enc keys klen src16r r tA = ctsSpecC7 enc keys klen src16r r tA :=
  ctsStep_eq_spec enc keys klen src16r r tA hr1 hr2 hlen

/-- Witness for C7 at a concrete 17-byte tail. -/
theorem cts_two_tweaks_witness :
    (1 ≤ 1 ∧ (1 : Nat) ≤ 15 ∧ (List.replicate 17 (0 : Nat)).length = 16 + 1) ∧
    ctsStep true zeroKeys 16 (List.replicate 17 0) 1 5 =
      ctsSpecC7 true zeroKeys 16 (List.replicate 17 0) 1 5 :=
  ⟨⟨by decide, by decide, by decide⟩,
   cts_two_tweaks true zeroKeys 16 (List.replicate 17 0) 1 5
     (by decide) (by decide) (by decide)⟩

/-- `_aes_crypt` reads only round-key slots `0 .. numRounds klen` for
the 128- and 192-bit key lengths. -/
theorem aesCrypt_congr (enc : Bool) (k1 k2 : Nat → Block) (klen : Nat)
    (hklen : klen = 16 ∨ klen = 24)
    (hagree : ∀ i, i ≤ numRounds klen → k1 i = k2 i) (tw d : Block) :
    aesCrypt enc k1 klen tw d = aesCrypt enc k2 klen tw d := by
  rcases hklen with h | h <;> subst h
  · rw [aesCrypt_chain16, aesCrypt_chain16, hagree 0 (by decide), hagree 1 (by decide),
      hagree 2 (by decide), hagree 3 (by decide), hagree 4 (by decide),
      hagree 5 (by decide), hagree 6 (by decide), hagree 7 (by decide),
      hagree 8 (by decide), hagree 9 (by decide), hagree 10 (by decide)]
  · rw [aesCrypt_chain24, aesCrypt_chain24, hagree 0 (by decide), hagree 1 (by decide),
      hagree 2 (by decide), hagree 3 (by decide), hagree 4 (by decide),
      hagree 5 (by decide), hagree 6 (by decide), hagree 7 (by decide),
      hagree 8 (by decide), hagree 9 (by decide), hagree 10 (by decide),
      hagree 11 (by decide), hagree 12 (by decide)]

theorem cryptBlockBytes_congr (enc : Bool) (k1 k2 : Nat → Block) (klen : Nat)
    (hcr : ∀ tw d, aesCrypt enc k1 klen tw d = aesCrypt enc k2 klen tw d)
    (t : Nat) (l : List Nat) :
    cryptBlockBytes enc k1 klen t l = cryptBlockBytes enc k2 klen t l := by
  unfold cryptBlockBytes
  rw [hcr]

theorem blockLoopIter_congr (enc : Bool) (k1 k2 : Nat → Block) (klen : Nat)
    (hcr : ∀ tw d, aesCrypt enc k1 klen tw d = aesCrypt enc k2 klen tw d) :
    ∀ (n : Nat) (src : List Nat) (len t : Nat),
      blockLoopIter enc k1 klen n src len t = blockLoopIter enc k2 klen n src len t := by
  intro n
  induction n with
  | zero => intro src len t; rfl
  | succ n ih =>
    intro src len t
    simp only [blockLoopIter]
    rw [cryptBlockBytes_congr enc k1 k2 klen hcr, ih]

theorem mainLoopIter_congr (enc : Bool) (k1 k2 : Nat → Block) (klen : Nat)
    (hcr : ∀ tw d, aesCrypt enc k1 klen tw d = aesCrypt enc k2 klen tw d) :
    ∀ (n : Nat) (src : List Nat) (len t : Nat),
      mainLoopIter enc k1 klen n src len t = mainLoopIter enc k2 klen n src len t := by
  intro n
  induction n with
  | zero => intro src len t; rfl
  | succ n ih =>
    intro src len t
    simp only [mainLoopIter]
    unfold cryptChunk4
    rw [cryptBlockBytes_congr enc k1 k2 klen hcr, cryptBlockBytes_congr enc k1 k2 klen hcr,
      cryptBlockBytes_congr enc k1 k2 klen hcr, cryptBlockBytes_congr enc k1 k2 klen hcr, ih]

theorem ctsStep_congr (enc : Bool) (k1 k2 : Nat → Block) (klen : Nat)
    (hcr : ∀ tw d, aesCrypt enc k1 klen tw d = aesCrypt enc k2 klen tw d)
    (src16r : List Nat) (r t : Nat) :
    ctsStep enc k1 klen src16r r t = ctsStep enc k2 klen src16r r t := by
  unfold ctsStep
  simp only [hcr]

/-- **C10.** For a 128- or 192-bit key the routine's output and tweak
write-back are independent of the contents of round-key schedule slots
beyond the active round count (10 or 12): `_load_round_keys` loads
slots 11-14 into registers regardless, but `_aes_crypt` never reads
them on the corresponding key-length branch, so two key schedules that
agree on the key-length tag and on the active slots produce identical
results however the remaining slots differ. -/
theorem keyslot_independence (enc : Bool) (ctx1 ctx2 : AesCtx) (src : List Nat) (t : Nat)
    (hlen_eq : ctx1.key_length = ctx2.key_length)
    (hklen : ctx1.key_length = 16 ∨ ctx1.key_length = 24)
    (hagree : ∀ i, i ≤ numRounds ctx1.key_length →
      (if enc then ctx1.key_enc else ctx1.key_dec) i =
        (if enc then ctx2.key_enc else ctx2.key_dec) i) :
    aesXtsCrypt enc ctx1 src t = aesXtsCrypt enc ctx2 src t := by
  unfold aesXtsCrypt
  dsimp only
  rw [← hlen_eq]
  have hcr := aesCrypt_congr enc (if enc then ctx1.key_enc else ctx1.key_dec)
    (if enc then ctx2.key_enc else ctx2.key_dec) ctx1.key_length hklen hagree
  have hm := mainLoopIter_congr enc _ _ ctx1.key_length hcr
  have hb := blockLoopIter_congr enc _ _ ctx1.key_length hcr
  have hc := ctsStep_congr enc _ _ ctx1.key_length hcr
  unfold mainLoop blockLoop
  simp only [hm, hb, hc]

/-- A key schedule whose inactive slots hold junk. -/
def oneBlock : Block := fun _ => 1

def junkKeys : Nat → Block := fun i => if i ≤ 10 then zeroBlock else oneBlock

def junkCtx : AesCtx := ⟨junkKeys, junkKeys, 16⟩

/-- Witness for C10: all-zero schedule versus one with junk in slots
11-14, 128-bit key length, identical results. -/
theorem keyslot_independence_witness :
    (zeroCtx.key_length = junkCtx.key_length ∧
      (zeroCtx.key_length = 16 ∨ zeroCtx.key_length = 24) ∧
      (∀ i, i ≤ numRounds zeroCtx.key_length →
        (if true then zeroCtx.key_enc else zeroCtx.key_dec) i =
          (if true then junkCtx.key_enc else junkCtx.key_dec) i)) ∧
    aesXtsCrypt true zeroCtx (List.replicate 16 0) 1 =
      aesXtsCrypt true junkCtx (List.replicate 16 0) 1 :=
  ⟨⟨rfl, Or.inl rfl, by decide⟩,
   keyslot_independence true zeroCtx junkCtx (List.replicate 16 0) 1 rfl
     (Or.inl rfl) (by decide)⟩

/-- The ciphertext-stealing tail emits `16 + r` bytes. -/
theorem ctsStep_length (enc : Bool) (keys : Nat → Block) (klen : Nat)
    (src16r : List Nat) (r tA : Nat) (hr : r ≤ 16) :
    (ctsStep enc keys klen src16r r tA).length = 16 + r := by
  unfold ctsStep
  dsimp only
  rw [List.length_append, storeBlock_length, List.length_drop, storeBlock_length]
  omega

/-- Every byte emitted by the tweaked block primitive is below 256. -/
theorem cryptBlockBytes_mem_lt (enc : Bool) (keys : Nat → Block) (klen : Nat)
    (hk : ∀ i, i ≤ 14 → BytesInRange (keys i)) (t : Nat) (l : List Nat) :
    ∀ b ∈ cryptBlockBytes enc keys klen t l, b < 256 := by
  intro b hb
  unfold cryptBlockBytes storeBlock at hb
  rw [List.mem_ofFn] at hb
  obtain ⟨i, hi⟩ := hb
  rw [← hi]
  exact aesCrypt_bytes enc keys klen _ _ hk (tweakBlock_bytes t) i

/-- `ctsSpecC7` at the encryption direction, ifs resolved. -/
theorem ctsSpecC7_enc (keys : Nat → Block) (klen : Nat) (src16r : List Nat)
    (r tA : Nat) :
    ctsSpecC7 true keys klen src16r r tA =
      cryptBlockBytes true keys klen (nextTweak tA)
        ((src16r.drop 16).take r ++
          (cryptBlockBytes true keys klen tA (src16r.take 16)).drop r) ++
      (cryptBlockBytes true keys klen tA (src16r.take 16)).take r := rfl

/-- `ctsSpecC7` at the decryption direction, ifs resolved. -/
theorem ctsSpecC7_dec (keys : Nat → Block) (klen : Nat) (src16r : List Nat)
    (r tA : Nat) :
    ctsSpecC7 false keys klen src16r r tA =
      cryptBlockBytes false keys klen tA
        ((src16r.drop 16).take r ++
          (cryptBlockBytes false keys klen (nextTweak tA) (src16r.take 16)).drop r) ++
      (cryptBlockBytes false keys klen (nextTweak tA) (src16r.take 16)).take r := rfl

/-- Ciphertext stealing round-trips at the specification level. -/
theorem ctsSpecC7_roundtrip (ctx : AesCtx) (src16r : List Nat) (r tA : Nat)
    (hv : ValidCtx ctx) (hr1 : 1 ≤ r) (hr2 : r ≤ 15)
    (hlen : src16r.length = 16 + r) (hb : ∀ b ∈ src16r, b < 256) :
    ctsSpecC7 false ctx.key_dec ctx.key_length
      (ctsSpecC7 true ctx.key_enc ctx.key_length src16r r tA) r tA = src16r := by
  rw [ctsSpecC7_enc, ctsSpecC7_dec]
  have hkb : ∀ i, i ≤ 14 → BytesInRange (ctx.key_enc i) := hv.2.1
  have hP2len : ((src16r.drop 16).take r).length = r := by
    rw [List.length_take, List.length_drop, hlen]
    omega
  have he1len : (cryptBlockBytes true ctx.key_enc ctx.key_length tA
      (src16r.take 16)).length = 16 := cryptBlockBytes_length _ _ _ _ _
  have hmlen : ((src16r.drop 16).take r ++
      (cryptBlockBytes true ctx.key_enc ctx.key_length tA (src16r.take 16)).drop r).length
        = 16 := by
    rw [List.length_append, hP2len, List.length_drop, he1len]
    omega
  have hmb : ∀ b ∈ (src16r.drop 16).take r ++
      (cryptBlockBytes true ctx.key_enc ctx.key_length tA (src16r.take 16)).drop r,
      b < 256 := by
    intro b hbm
    rcases List.mem_append.mp hbm with h | h
    · exact hb b (List.mem_of_mem_drop (List.mem_of_mem_take h))
    · exact cryptBlockBytes_mem_lt true ctx.key_enc ctx.key_length hkb tA
        (src16r.take 16) b (List.mem_of_mem_drop h)
  have hCtake : (cryptBlockBytes true ctx.key_enc ctx.key_length (nextTweak tA)
        ((src16r.drop 16).take r ++
          (cryptBlockBytes true ctx.key_enc ctx.key_length tA (src16r.take 16)).drop r) ++
      (cryptBlockBytes true ctx.key_enc ctx.key_length tA (src16r.take 16)).take r).take 16 =
      cryptBlockBytes true ctx.key_enc ctx.key_length (nextTweak tA)
        ((src16r.drop 16).take r ++
          (cryptBlockBytes true ctx.key_enc ctx.key_length tA (src16r.take 16)).drop r) :=
    List.take_left' (cryptBlockBytes_length _ _ _ _ _)
  have hCdrop : (cryptBlockBytes true ctx.key_enc ctx.key_length (nextTweak tA)
        ((src16r.drop 16).take r ++
          (cryptBlockBytes true ctx.key_enc ctx.key_length tA (src16r.take 16)).drop r) ++
      (cryptBlockBytes true ctx.key_enc ctx.key_length tA (src16r.take 16)).take r).drop 16 =
      (cryptBlockBytes true ctx.key_enc ctx.key_length tA (src16r.take 16)).take r :=
    List.drop_left' (cryptBlockBytes_length _ _ _ _ _)
  rw [hCtake, hCdrop,
    cryptBlockBytes_dec_enc ctx (nextTweak tA) _ hv hmlen hmb,
    List.drop_left' hP2len, List.take_left' hP2len, List.take_take, Nat.min_self,
    List.take_append_drop,
    cryptBlockBytes_dec_enc ctx tA (src16r.take 16) hv
      (by rw [List.length_take, hlen]; omega)
      (fun b h => hb b (List.mem_of_mem_take h))]
  have hP2 : (src16r.drop 16).take r = src16r.drop 16 :=
    List.take_of_length_le (by rw [List.length_drop, hlen]; omega)
  rw [hP2, List.take_append_drop]

/-- The instruction-level ciphertext-stealing tail round-trips. -/
theorem ctsStep_roundtrip (ctx : AesCtx) (src16r : List Nat) (r tA : Nat)
    (hv : ValidCtx ctx) (hr1 : 1 ≤ r) (hr2 : r ≤ 15)
    (hlen : src16r.length = 16 + r) (hb : ∀ b ∈ src16r, b < 256) :
    ctsStep false ctx.key_dec ctx.key_length
      (ctsStep true ctx.key_enc ctx.key_length src16r r tA) r tA = src16r := by
  rw [ctsStep_eq_spec false ctx.key_dec ctx.key_length _ r tA hr1 hr2
      (ctsStep_length true ctx.key_enc ctx.key_length src16r r tA (by omega)),
    ctsStep_eq_spec true ctx.key_enc ctx.key_length src16r r tA hr1 hr2 hlen]
  exact ctsSpecC7_roundtrip ctx src16r r tA hv hr1 hr2 hlen hb

/-- Decrypting the block loop's output (with anything appended) gives
back the first `16·n` source bytes. -/
theorem blockLoopIter_roundtrip (ctx : AesCtx) (hv : ValidCtx ctx) :
    ∀ (n : Nat) (src extra : List Nat) (len lenD t : Nat),
      (∀ b ∈ src, b < 256) → 16 * n ≤ src.length →
      (blockLoopIter false ctx.key_dec ctx.key_length n
        ((blockLoopIter true ctx.key_enc ctx.key_length n src len t).1 ++ extra)
        lenD t).1 = src.take (16 * n) := by
  intro n
  induction n with
  | zero => intro src extra len lenD t hb hlen; rfl
  | succ n ih =>
    intro src extra len lenD t hb hlen
    simp only [blockLoopIter]
    rw [List.append_assoc, List.take_left' (cryptBlockBytes_length _ _ _ _ _),
      List.drop_left' (cryptBlockBytes_length _ _ _ _ _),
      cryptBlockBytes_dec_enc ctx t (src.take 16) hv
        (by rw [List.length_take]; omega)
        (fun b h => hb b (List.mem_of_mem_take h)),
      ih (src.drop 16) extra (len - 16) (lenD - 16) (nextTweak t)
        (fun b h => hb b (List.mem_of_mem_drop h))
        (by rw [List.length_drop]; omega)]
    have h16 : 16 * (n + 1) = 16 + 16 * n := by omega
    rw [h16, List.take_add]

theorem ifKeysT (ctx : AesCtx) : (if true then ctx.key_enc else ctx.key_dec) = ctx.key_enc := rfl

theorem ifKeysF (ctx : AesCtx) : (if false then ctx.key_enc else ctx.key_dec) = ctx.key_dec := rfl

/-- Round-tripping through the block loop, at the `blockLoop` level. -/
theorem blockLoop_roundtrip (ctx : AesCtx) (hv : ValidCtx ctx) (src extra : List Nat)
    (len lenD t : Nat) (hb : ∀ b ∈ src, b < 256) (hsl : 16 * (len / 16) ≤ src.length)
    (hcount : lenD / 16 = len / 16) :
    (blockLoop false ctx.key_dec ctx.key_length
      ((blockLoop true ctx.key_enc ctx.key_length src len t).1 ++ extra) lenD t).1 =
      src.take (16 * (len / 16)) := by
  unfold blockLoop
  rw [hcount]
  exact blockLoopIter_roundtrip ctx hv (len / 16) src extra len lenD t hb hsl

/-- **C1.** For every valid key schedule (key length 16, 24 or 32,
byte-valued round keys, equivalent-inverse decryption schedule), every
tweak and every byte string of length at least 16 bytes, running the
decryption entry point on the output of the encryption entry point
with the same key and tweak returns the plaintext, on both the
block-aligned path and the ciphertext-stealing path. -/
theorem xts_roundtrip (ctx : AesCtx) (src : List Nat) (t : Nat)
    (hv : ValidCtx ctx) (hb : ∀ b ∈ src, b < 256) (hlen : 16 ≤ src.length) :
    (aesXtsCrypt false ctx (aesXtsCrypt true ctx src t).1 t).1 = src := by
  by_cases hr : src.length % 16 = 0
  · obtain ⟨hT, hM, hD, hL⟩ := blockLoop_spec true ctx.key_enc ctx.key_length
      src.length src t
    have henc : (aesXtsCrypt true ctx src t).1 =
        (blockLoop true ctx.key_enc ctx.key_length src src.length t).1 := by
      rw [aesXtsCrypt_aligned true ctx src t hr, ifKeysT]
    have hctlen : (blockLoop true ctx.key_enc ctx.key_length src src.length t).1.length
        = src.length := by
      rw [hL]
      omega
    have hctmod : (blockLoop true ctx.key_enc ctx.key_length src src.length t).1.length
        % 16 = 0 := by
      rw [hctlen]
      exact hr
    rw [henc, aesXtsCrypt_aligned false ctx _ t hctmod, ifKeysF]
    dsimp only
    have hrt := blockLoop_roundtrip ctx hv src [] src.length
      (blockLoop true ctx.key_enc ctx.key_length src src.length t).1.length t hb
      (by omega) (by rw [hctlen])
    rw [List.append_nil] at hrt
    rw [hrt]
    exact List.take_of_length_le (by omega)
  · have hsub : (src.length - 16) % 16 ≠ 0 := by omega
    obtain ⟨hT, hM, hD, hL⟩ := blockLoop_spec true ctx.key_enc ctx.key_length
      (src.length - 16) src t
    have henc : (aesXtsCrypt true ctx src t).1 =
        (blockLoop true ctx.key_enc ctx.key_length src (src.length - 16) t).1 ++
        ctsStep true ctx.key_enc ctx.key_length
          (src.drop (16 * ((src.length - 16) / 16))) ((src.length - 16) % 16)
          (nextTweak^[(src.length - 16) / 16] t) := by
      rw [aesXtsCrypt_canon]
      unfold aesXtsCanon
      dsimp only
      rw [if_pos hr, ifKeysT, hM, if_pos hsub, hD, hT]
    have hctsl : (ctsStep true ctx.key_enc ctx.key_length
        (src.drop (16 * ((src.length - 16) / 16))) ((src.length - 16) % 16)
        (nextTweak^[(src.length - 16) / 16] t)).length = 16 + (src.length - 16) % 16 :=
      ctsStep_length _ _ _ _ _ _ (by omega)
    have hctlen : ((blockLoop true ctx.key_enc ctx.key_length src (src.length - 16) t).1 ++
        ctsStep true ctx.key_enc ctx.key_length
          (src.drop (16 * ((src.length - 16) / 16))) ((src.length - 16) % 16)
          (nextTweak^[(src.length - 16) / 16] t)).length = src.length := by
      rw [List.length_append, hL, hctsl]
      omega
    rw [henc, aesXtsCrypt_canon]
    unfold aesXtsCanon
    dsimp only
    rw [hctlen, if_pos hr, ifKeysF]
    obtain ⟨hT2, hM2, hD2, hL2⟩ := blockLoop_spec false ctx.key_dec ctx.key_length
      (src.length - 16)
      ((blockLoop true ctx.key_enc ctx.key_length src (src.length - 16) t).1 ++
        ctsStep true ctx.key_enc ctx.key_length
          (src.drop (16 * ((src.length - 16) / 16))) ((src.length - 16) % 16)
          (nextTweak^[(src.length - 16) / 16] t)) t
    rw [hM2, if_pos hsub, hD2, hT2]
    dsimp only
    have hrt := blockLoop_roundtrip ctx hv src
      (ctsStep true ctx.key_enc ctx.key_length
        (src.drop (16 * ((src.length - 16) / 16))) ((src.length - 16) % 16)
        (nextTweak^[(src.length - 16) / 16] t))
      (src.length - 16) (src.length - 16) t hb (by omega) rfl
    rw [hrt, List.drop_left' hL,
      ctsStep_roundtrip ctx (src.drop (16 * ((src.length - 16) / 16)))
        ((src.length - 16) % 16) (nextTweak^[(src.length - 16) / 16] t) hv
        (by omega) (by omega) (by rw [List.length_drop]; omega)
        (fun b h => hb b (List.mem_of_mem_drop h))]
    exact List.take_append_drop _ src

/-- Witness for C1 with the all-zero valid context, a 16-byte input
and tweak 1. -/
theorem xts_roundtrip_witness :
    (ValidCtx zeroCtx ∧ (∀ b ∈ List.replicate 16 (0 : Nat), b < 256) ∧
      16 ≤ (List.replicate 16 (0 : Nat)).length) ∧
    (aesXtsCrypt false zeroCtx (aesXtsCrypt true zeroCtx (List.replicate 16 0) 1).1 1).1 =
      List.replicate 16 0 :=
  ⟨⟨by decide, by decide, by decide⟩,
   xts_roundtrip zeroCtx (List.replicate 16 0) 1 (by decide) (by decide) (by decide)⟩

/-- A byte of memory per list entry; a read of `n` bytes at `off`. -/
def readBytes (mem : List Nat) (off n : Nat) : List Nat := (mem.drop off).take n

/-- A store of `data` at offset `off`, overwriting in place. -/
def writeBytes (mem : List Nat) (off : Nat) (data : List Nat) : List Nat :=
  mem.take off ++ data ++ mem.drop (off + data.length)

theorem readBytes_length (mem : List Nat) (off n : Nat) (h : off + n ≤ mem.length) :
    (readBytes mem off n).length = n := by
  unfold readBytes
  rw [List.length_take, List.length_drop]
  omega

theorem writeBytes_length (mem : List Nat) (off : Nat) (data : List Nat)
    (h : off + data.length ≤ mem.length) :
    (writeBytes mem off data).length = mem.length := by
  unfold writeBytes
  rw [List.length_append, List.length_append, List.length_take, List.length_drop]
  omega

theorem writeBytes_nil (mem : List Nat) (off : Nat) :
    writeBytes mem off [] = mem := by
  unfold writeBytes
  simp [List.take_append_drop]

/-- A read entirely above a store is unaffected by it. -/
theorem readBytes_writeBytes_above (mem : List Nat) (off off2 n : Nat) (data : List Nat)
    (hoffL : off ≤ mem.length) (h : off + data.length ≤ off2) :
    readBytes (writeBytes mem off data) off2 n = readBytes mem off2 n := by
  unfold readBytes writeBytes
  have hA : (mem.take off).length = off := by
    rw [List.length_take]
    omega
  have h1 : off2 = (mem.take off ++ data).length + (off2 - off - data.length) := by
    rw [List.length_append, hA]
    omega
  nth_rewrite 1 [h1]
  rw [List.drop_append]
  have h2 : (mem.drop (off + data.length)).drop (off2 - off - data.length) =
      mem.drop off2 := by
    rw [List.drop_drop]
    congr 1
    omega
  rw [h2]

/-- A read entirely below a store is unaffected by it. -/
theorem readBytes_writeBytes_below (mem : List Nat) (off off2 n : Nat) (data : List Nat)
    (hoffL : off ≤ mem.length) (h : off2 + n ≤ off) :
    readBytes (writeBytes mem off data) off2 n = readBytes mem off2 n := by
  unfold readBytes writeBytes
  have hA : (mem.take off).length = off := by
    rw [List.length_take]
    omega
  rw [List.append_assoc, List.drop_append_of_le_length (by rw [hA]; omega),
    List.take_append_of_le_length (by rw [List.length_drop, hA]; omega),
    List.drop_take, List.take_take]
  congr 1
  omega

/-- Reading back exactly what was stored. -/
theorem readBytes_writeBytes_self (mem : List Nat) (off : Nat) (data : List Nat)
    (h : off + data.length ≤ mem.length) :
    readBytes (writeBytes mem off data) off data.length = data := by
  unfold readBytes writeBytes
  have hA : (mem.take off).length = off := by
    rw [List.length_take]
    omega
  rw [List.append_assoc, List.drop_left' hA, List.take_left' rfl]

/-- Two adjacent stores merge into one. -/
theorem writeBytes_append (mem : List Nat) (off : Nat) (d1 d2 : List Nat)
    (h : off ≤ mem.length) :
    writeBytes (writeBytes mem off d1) (off + d1.length) d2 =
      writeBytes mem off (d1 ++ d2) := by
  unfold writeBytes
  have hA : (mem.take off).length = off := by
    rw [List.length_take]
    omega
  have hAd : (mem.take off ++ d1).length = off + d1.length := by
    rw [List.length_append, hA]
  rw [List.take_left' hAd]
  have hd : ((mem.take off ++ d1) ++ mem.drop (off + d1.length)).drop
      (off + d1.length + d2.length) = mem.drop (off + (d1 ++ d2).length) := by
    have hi : off + d1.length + d2.length = (mem.take off ++ d1).length + d2.length := by
      rw [hAd]
    rw [hi, List.drop_append, List.drop_drop, List.length_append]
    congr 1
    omega
  rw [hd]
  simp [List.append_assoc]

/-- A store at `d + r` followed by an overlapping store of a block at
`d` (the CTS store order) equals one store of the merged bytes. -/
theorem write_write_overlap (mem : List Nat) (d r : Nat) (A B : List Nat)
    (hA16 : A.length = 16) (hB16 : B.length = 16) (hr : r ≤ 16)
    (hL : d + r + 16 ≤ mem.length) :
    writeBytes (writeBytes mem (d + r) A) d B =
      writeBytes mem d (B ++ A.drop (16 - r)) := by
  unfold writeBytes
  have hP : (mem.take (d + r)).length = d + r := by
    rw [List.length_take]
    omega
  have ht : ((mem.take (d + r) ++ A) ++ mem.drop (d + r + A.length)).take d =
      mem.take d := by
    rw [List.take_append_of_le_length (by rw [List.length_append, hP, hA16]; omega),
      List.take_append_of_le_length (by rw [hP]; omega), List.take_take]
    congr 1
    omega
  have hd : ((mem.take (d + r) ++ A) ++ mem.drop (d + r + A.length)).drop (d + B.length) =
      A.drop (16 - r) ++ mem.drop (d + r + A.length) := by
    rw [List.drop_append_of_le_length (by rw [List.length_append, hP, hA16, hB16]; omega)]
    congr 1
    have hi : d + B.length = (mem.take (d + r)).length + (16 - r) := by
      rw [hP, hB16]
      omega
    rw [hi, List.drop_append]
  rw [ht, hd]
  have hidx : d + (B ++ A.drop (16 - r)).length = d + r + A.length := by
    rw [List.length_append, List.length_drop, hA16, hB16]
    omega
  rw [hidx]
  simp [List.append_assoc]

/-- The main loop as memory operations: per iteration, all `4*VL = 64`
source bytes are loaded before the 64 destination bytes are stored
(the source loads all precede the `_vmovdqu V0..V3, (DST)` stores).
Returns the advanced `SRC`, `DST`, the memory, and the tweak. -/
def mainLoopM (enc : Bool) (keys : Nat → Block) (klen : Nat) :
    Nat → Nat → Nat → List Nat → Nat → Nat × Nat × List Nat × Nat
  | 0, srcOff, dstOff, mem, t => (srcOff, dstOff, mem, t)
  | n + 1, srcOff, dstOff, mem, t =>
    mainLoopM enc keys klen n (srcOff + 64) (dstOff + 64)
      (writeBytes mem dstOff (cryptChunk4 enc keys klen (readBytes mem srcOff 64) t))
      (nextTweak (nextTweak (nextTweak (nextTweak t))))

/-- The block-at-a-time loop as memory operations: load 16 bytes from
`SRC`, en/decrypt, store 16 bytes to `DST`, advance. -/
def blockLoopM (enc : Bool) (keys : Nat → Block) (klen : Nat) :
    Nat → Nat → Nat → List Nat → Nat → Nat × Nat × List Nat × Nat
  | 0, srcOff, dstOff, mem, t => (srcOff, dstOff, mem, t)
  | n + 1, srcOff, dstOff, mem, t =>
    blockLoopM enc keys klen n (srcOff + 16) (dstOff + 16)
      (writeBytes mem dstOff (cryptBlockBytes enc keys klen t (readBytes mem srcOff 16)))
      (nextTweak t)

/-- The ciphertext-stealing tail as memory operations, preserving the
source order: the load of the trailing partial source block
(`vmovdqu (SRC,LEN,1), %xmm1`) happens before the store to
`(DST,LEN,1)`, which happens before the final store to `(DST)`. -/
def ctsM (enc : Bool) (keys : Nat → Block) (klen : Nat)
    (srcOff dstOff r : Nat) (mem : List Nat) (t : Nat) : List Nat :=
  let tB := nextTweak t
  let ct0 := if enc then t else tB
  let ct1 := if enc then tB else t
  let xmm0 := aesCrypt enc keys klen (tweakBlock ct0) (loadBlock (readBytes mem srcOff 16))
  let xmm1 := loadBlock (readBytes mem (srcOff + r) 16)
  let xmm2 := vpshufb xmm0 (loadBlock ((ctsPermuteTable.drop r).take 16))
  let mem1 := writeBytes mem (dstOff + r) (storeBlock xmm2)
  let xmm3 := loadBlock ((ctsPermuteTable.drop (32 - r)).take 16)
  let xmm1s := vpshufb xmm1 xmm3
  let merged := vpblendvb xmm3 xmm0 xmm1s
  let xmm0f := aesCrypt enc keys klen (tweakBlock ct1) merged
  writeBytes mem1 dstOff (storeBlock xmm0f)

/-- `_aes_xts_crypt` as memory operations: main loop, block loop,
then the ciphertext-stealing tail when the length is not a multiple
of 16.  Returns the final memory. -/
def aesXtsCryptM (enc : Bool) (ctx : AesCtx) (srcOff dstOff len : Nat)
    (mem : List Nat) (t : Nat) : List Nat :=
  let klen := ctx.key_length
  let keys := if enc then ctx.key_enc else ctx.key_dec
  let len1 := if len % 16 ≠ 0 then len - 16 else len
  let m := mainLoopM enc keys klen (len1 / 64) srcOff dstOff mem t
  let b := blockLoopM enc keys klen ((len1 % 64) / 16) m.1 m.2.1 m.2.2.1 m.2.2.2
  if len % 16 ≠ 0 then ctsM enc keys klen b.1 b.2.1 (len % 16) b.2.2.1 b.2.2.2
  else b.2.2.1

theorem cryptChunk4_length (enc : Bool) (keys : Nat → Block) (klen : Nat)
    (src : List Nat) (t : Nat) : (cryptChunk4 enc keys klen src t).length = 64 := by
  unfold cryptChunk4
  rw [List.length_append, List.length_append, List.length_append,
    cryptBlockBytes_length, cryptBlockBytes_length, cryptBlockBytes_length,
    cryptBlockBytes_length]

/-- State invariants of the pure main-loop iteration. -/
theorem mainLoopIter_state (enc : Bool) (keys : Nat → Block) (klen : Nat) :
    ∀ (n : Nat) (src : List Nat) (len t : Nat),
      (mainLoopIter enc keys klen n src len t).2.2.2 = nextTweak^[4 * n] t ∧
      (mainLoopIter enc keys klen n src len t).2.2.1 = len - 64 * n ∧
      (mainLoopIter enc keys klen n src len t).2.1 = src.drop (64 * n) ∧
      (mainLoopIter enc keys klen n src len t).1.length = 64 * n := by
  intro n
  induction n with
  | zero => exact fun src len t => ⟨rfl, rfl, rfl, rfl⟩
  | succ n ih =>
    intro src len t
    simp only [mainLoopIter]
    obtain ⟨h1, h2, h3, h4⟩ := ih (src.drop 64) (len - 64)
      (nextTweak (nextTweak (nextTweak (nextTweak t))))
    refine ⟨?_, ?_, ?_, ?_⟩
    · rw [h1]
      have hi : 4 * (n + 1) = 4 * n + 4 := by omega
      rw [hi, Function.iterate_add_apply]
      rfl
    · rw [h2]
      omega
    · rw [h3, List.drop_drop]
      congr 1
      omega
    · rw [List.length_append, h4, cryptChunk4_length]
      omega

/-- The block-loop output depends only on the first `16·n` source
bytes (and not on the `LEN` argument). -/
theorem blockLoopIter_take (enc : Bool) (keys : Nat → Block) (klen : Nat) :
    ∀ (n : Nat) (src : List Nat) (len lenB t : Nat),
      (blockLoopIter enc keys klen n (src.take (16 * n)) lenB t).1 =
        (blockLoopIter enc keys klen n src len t).1 := by
  intro n
  induction n with
  | zero => intro src len lenB t; rfl
  | succ n ih =>
    intro src len lenB t
    simp only [blockLoopIter]
    have h1 : (src.take (16 * (n + 1))).take 16 = src.take 16 := by
      rw [List.take_take]
      congr 1
      omega
    have h2 : (src.take (16 * (n + 1))).drop 16 = (src.drop 16).take (16 * n) := by
      rw [List.drop_take]
      congr 1 <;> omega
    rw [h1, h2, ih (src.drop 16) (len - 16) (lenB - 16) (nextTweak t)]

theorem take_drop_take (src : List Nat) (m k : Nat) (h : k + 16 ≤ m) :
    ((src.take m).drop k).take 16 = (src.drop k).take 16 := by
  rw [List.drop_take, List.take_take]
  congr 1
  omega

/-- The main-loop output depends only on the first `64·n` source bytes
(and not on the `LEN` argument). -/
theorem mainLoopIter_take (enc : Bool) (keys : Nat → Block) (klen : Nat) :
    ∀ (n : Nat) (src : List Nat) (len lenB t : Nat),
      (mainLoopIter enc keys klen n (src.take (64 * n)) lenB t).1 =
        (mainLoopIter enc keys klen n src len t).1 := by
  intro n
  induction n with
  | zero => intro src len lenB t; rfl
  | succ n ih =>
    intro src len lenB t
    simp only [mainLoopIter]
    unfold cryptChunk4
    have h1 : (src.take (64 * (n + 1))).take 16 = src.take 16 := by
      rw [List.take_take]
      congr 1 <;> omega
    have h2 := take_drop_take src (64 * (n + 1)) 16 (by omega)
    have h3 := take_drop_take src (64 * (n + 1)) 32 (by omega)
    have h4 := take_drop_take src (64 * (n + 1)) 48 (by omega)
    have h5 : (src.take (64 * (n + 1))).drop 64 = (src.drop 64).take (64 * n) := by
      rw [List.drop_take]
      congr 1 <;> omega
    rw [h1, h2, h3, h4, h5, ih (src.drop 64) (len - 64) (lenB - 64)
      (nextTweak (nextTweak (nextTweak (nextTweak t))))]

theorem writeBytes_append_len (mem : List Nat) (off k : Nat) (d1 d2 : List Nat)
    (h : off ≤ mem.length) (hl : d1.length = k) :
    writeBytes (writeBytes mem off d1) (off + k) d2 = writeBytes mem off (d1 ++ d2) := by
  have hx := writeBytes_append mem off d1 d2 h
  rw [hl] at hx
  exact hx

theorem cryptChunk4_take (enc : Bool) (keys : Nat → Block) (klen : Nat)
    (src : List Nat) (m t : Nat) (h : 64 ≤ m) :
    cryptChunk4 enc keys klen (src.take m) t = cryptChunk4 enc keys klen src t := by
  unfold cryptChunk4
  rw [show (src.take m).take 16 = src.take 16 from by rw [List.take_take]; congr 1 <;> omega,
    take_drop_take src m 16 (by omega), take_drop_take src m 32 (by omega),
    take_drop_take src m 48 (by omega)]

/-- The block loop over memory equals one store of the pure block-loop
output, when the destination equals the source or the regions are
disjoint. -/
theorem blockLoopM_spec (enc : Bool) (keys : Nat → Block) (klen : Nat) :
    ∀ (n s d : Nat) (mem : List Nat) (t : Nat),
      (d = s ∨ s + 16 * n ≤ d ∨ d + 16 * n ≤ s) →
      s + 16 * n ≤ mem.length → d + 16 * n ≤ mem.length →
      blockLoopM enc keys klen n s d mem t =
        (s + 16 * n, d + 16 * n,
         writeBytes mem d
           (blockLoopIter enc keys klen n (readBytes mem s (16 * n)) (16 * n) t).1,
         nextTweak^[n] t) := by
  intro n
  induction n with
  | zero =>
    intro s d mem t _ _ _
    rw [show (blockLoopIter enc keys klen 0 (readBytes mem s (16 * 0)) (16 * 0) t).1 = []
        from rfl,
      writeBytes_nil]
    simp only [blockLoopM, Nat.mul_zero, Nat.add_zero, Function.iterate_zero_apply]
  | succ n ih =>
    intro s d mem t hdisj hsL hdL
    have hC0 : (cryptBlockBytes enc keys klen t (readBytes mem s 16)).length = 16 :=
      cryptBlockBytes_length _ _ _ _ _
    have hm1len : (writeBytes mem d
        (cryptBlockBytes enc keys klen t (readBytes mem s 16))).length = mem.length :=
      writeBytes_length _ _ _ (by rw [hC0]; omega)
    simp only [blockLoopM]
    rw [ih (s + 16) (d + 16) _ (nextTweak t)
      (by rcases hdisj with h | h | h
          · exact Or.inl (by omega)
          · exact Or.inr (Or.inl (by omega))
          · exact Or.inr (Or.inr (by omega)))
      (by rw [hm1len]; omega) (by rw [hm1len]; omega)]
    have hread : readBytes (writeBytes mem d (cryptBlockBytes enc keys klen t
        (readBytes mem s 16))) (s + 16) (16 * n) = readBytes mem (s + 16) (16 * n) := by
      rcases hdisj with h | h | h
      · exact readBytes_writeBytes_above _ _ _ _ _ (by omega) (by rw [hC0]; omega)
      · exact readBytes_writeBytes_below _ _ _ _ _ (by omega) (by omega)
      · exact readBytes_writeBytes_above _ _ _ _ _ (by omega) (by rw [hC0]; omega)
    rw [hread]
    simp only [Prod.mk.injEq]
    refine ⟨by omega, by omega, ?_, ?_⟩
    · rw [writeBytes_append_len mem d 16
        (cryptBlockBytes enc keys klen t (readBytes mem s 16)) _ (by omega) hC0]
      congr 1
      simp only [blockLoopIter]
      have ht16 : (readBytes mem s (16 * (n + 1))).take 16 = readBytes mem s 16 := by
        unfold readBytes
        rw [List.take_take]
        congr 1 <;> omega
      have hd16 : (readBytes mem s (16 * (n + 1))).drop 16 =
          readBytes mem (s + 16) (16 * n) := by
        unfold readBytes
        rw [List.drop_take, List.drop_drop]
        congr 1 <;> omega
      rw [ht16, hd16]
      have hts : (readBytes mem (s + 16) (16 * n)).take (16 * n) =
          readBytes mem (s + 16) (16 * n) := by
        unfold readBytes
        rw [List.take_take]
        congr 1 <;> omega
      have hlen2 := blockLoopIter_take enc keys klen n (readBytes mem (s + 16) (16 * n))
        (16 * n) (16 * (n + 1) - 16) (nextTweak t)
      rw [hts] at hlen2
      rw [hlen2]
    · rw [← Function.iterate_succ_apply]

/-- The main loop over memory equals one store of the pure main-loop
output, when the destination equals the source or the regions are
disjoint. -/
theorem mainLoopM_spec (enc : Bool) (keys : Nat → Block) (klen : Nat) :
    ∀ (n s d : Nat) (mem : List Nat) (t : Nat),
      (d = s ∨ s + 64 * n ≤ d ∨ d + 64 * n ≤ s) →
      s + 64 * n ≤ mem.length → d + 64 * n ≤ mem.length →
      mainLoopM enc keys klen n s d mem t =
        (s + 64 * n, d + 64 * n,
         writeBytes mem d
           (mainLoopIter enc keys klen n (readBytes mem s (64 * n)) (64 * n) t).1,
         nextTweak^[4 * n] t) := by
  intro n
  induction n with
  | zero =>
    intro s d mem t _ _ _
    rw [show (mainLoopIter enc keys klen 0 (readBytes mem s (64 * 0)) (64 * 0) t).1 = []
        from rfl,
      writeBytes_nil]
    simp only [mainLoopM, Nat.mul_zero, Nat.add_zero, Function.iterate_zero_apply]
  | succ n ih =>
    intro s d mem t hdisj hsL hdL
    have hC0 : (cryptChunk4 enc keys klen (readBytes mem s 64) t).length = 64 :=
      cryptChunk4_length _ _ _ _ _
    have hm1len : (writeBytes mem d
        (cryptChunk4 enc keys klen (readBytes mem s 64) t)).length = mem.length :=
      writeBytes_length _ _ _ (by rw [hC0]; omega)
    simp only [mainLoopM]
    rw [ih (s + 64) (d + 64) _ (nextTweak (nextTweak (nextTweak (nextTweak t))))
      (by rcases hdisj with h | h | h
          · exact Or.inl (by omega)
          · exact Or.inr (Or.inl (by omega))
          · exact Or.inr (Or.inr (by omega)))
      (by rw [hm1len]; omega) (by rw [hm1len]; omega)]
    have hread : readBytes (writeBytes mem d (cryptChunk4 enc keys klen
        (readBytes mem s 64) t)) (s + 64) (64 * n) = readBytes mem (s + 64) (64 * n) := by
      rcases hdisj with h | h | h
      · exact readBytes_writeBytes_above _ _ _ _ _ (by omega) (by rw [hC0]; omega)
      · exact readBytes_writeBytes_below _ _ _ _ _ (by omega) (by omega)
      · exact readBytes_writeBytes_above _ _ _ _ _ (by omega) (by rw [hC0]; omega)
    rw [hread]
    simp only [Prod.mk.injEq]
    refine ⟨by omega, by omega, ?_, ?_⟩
    · rw [writeBytes_append_len mem d 64
        (cryptChunk4 enc keys klen (readBytes mem s 64) t) _ (by omega) hC0]
      congr 1
      simp only [mainLoopIter]
      have hchunk : cryptChunk4 enc keys klen (readBytes mem s (64 * (n + 1))) t =
          cryptChunk4 enc keys klen (readBytes mem s 64) t := by
        unfold readBytes
        rw [cryptChunk4_take enc keys klen (mem.drop s) (64 * (n + 1)) t (by omega),
          cryptChunk4_take enc keys klen (mem.drop s) 64 t (by omega)]
      have hd64 : (readBytes mem s (64 * (n + 1))).drop 64 =
          readBytes mem (s + 64) (64 * n) := by
        unfold readBytes
        rw [List.drop_take, List.drop_drop]
        congr 1 <;> omega
      rw [hchunk, hd64]
      have hts : (readBytes mem (s + 64) (64 * n)).take (64 * n) =
          readBytes mem (s + 64) (64 * n) := by
        unfold readBytes
        rw [List.take_take]
        congr 1 <;> omega
      have hlen2 := mainLoopIter_take enc keys klen n (readBytes mem (s + 64) (64 * n))
        (64 * n) (64 * (n + 1) - 64) (nextTweak (nextTweak (nextTweak (nextTweak t))))
      rw [hts] at hlen2
      rw [hlen2]
    · have hi : 4 * (n + 1) = 4 * n + 4 := by omega
      rw [hi, Function.iterate_add_apply]
      rfl

/-- Main loop followed by block loop over memory: one store of the two
pure outputs, ending at offset `16·(len1/16)` with the tweak advanced
`len1/16` steps. -/
theorem loopsM_spec (enc : Bool) (keys : Nat → Block) (klen : Nat)
    (len1 s d : Nat) (mem : List Nat) (t : Nat)
    (hdisj : d = s ∨ s + len1 ≤ d ∨ d + len1 ≤ s)
    (hsL : s + len1 ≤ mem.length) (hdL : d + len1 ≤ mem.length) :
    blockLoopM enc keys klen ((len1 % 64) / 16)
      (mainLoopM enc keys klen (len1 / 64) s d mem t).1
      (mainLoopM enc keys klen (len1 / 64) s d mem t).2.1
      (mainLoopM enc keys klen (len1 / 64) s d mem t).2.2.1
      (mainLoopM enc keys klen (len1 / 64) s d mem t).2.2.2 =
    (s + 16 * (len1 / 16), d + 16 * (len1 / 16),
     writeBytes mem d
       ((mainLoopIter enc keys klen (len1 / 64)
          (readBytes mem s (64 * (len1 / 64))) (64 * (len1 / 64)) t).1 ++
        (blockLoopIter enc keys klen ((len1 % 64) / 16)
          (readBytes mem (s + 64 * (len1 / 64)) (16 * ((len1 % 64) / 16)))
          (16 * ((len1 % 64) / 16)) (nextTweak^[4 * (len1 / 64)] t)).1),
     nextTweak^[len1 / 16] t) := by
  have hP4len : (mainLoopIter enc keys klen (len1 / 64)
      (readBytes mem s (64 * (len1 / 64))) (64 * (len1 / 64)) t).1.length =
      64 * (len1 / 64) :=
    (mainLoopIter_state enc keys klen (len1 / 64) _ _ t).2.2.2
  rw [mainLoopM_spec enc keys klen (len1 / 64) s d mem t
    (by rcases hdisj with h | h | h
        · exact Or.inl h
        · exact Or.inr (Or.inl (by omega))
        · exact Or.inr (Or.inr (by omega)))
    (by omega) (by omega)]
  dsimp only
  have hmemlen : (writeBytes mem d (mainLoopIter enc keys klen (len1 / 64)
      (readBytes mem s (64 * (len1 / 64))) (64 * (len1 / 64)) t).1).length =
      mem.length :=
    writeBytes_length _ _ _ (by rw [hP4len]; omega)
  rw [blockLoopM_spec enc keys klen ((len1 % 64) / 16) (s + 64 * (len1 / 64))
    (d + 64 * (len1 / 64)) _ (nextTweak^[4 * (len1 / 64)] t)
    (by rcases hdisj with h | h | h
        · exact Or.inl (by omega)
        · exact Or.inr (Or.inl (by omega))
        · exact Or.inr (Or.inr (by omega)))
    (by rw [hmemlen]; omega) (by rw [hmemlen]; omega)]
  have hread : readBytes (writeBytes mem d (mainLoopIter enc keys klen (len1 / 64)
      (readBytes mem s (64 * (len1 / 64))) (64 * (len1 / 64)) t).1)
      (s + 64 * (len1 / 64)) (16 * ((len1 % 64) / 16)) =
      readBytes mem (s + 64 * (len1 / 64)) (16 * ((len1 % 64) / 16)) := by
    rcases hdisj with h | h | h
    · exact readBytes_writeBytes_above _ _ _ _ _ (by omega) (by rw [hP4len]; omega)
    · exact readBytes_writeBytes_below _ _ _ _ _ (by omega) (by omega)
    · exact readBytes_writeBytes_above _ _ _ _ _ (by omega) (by rw [hP4len]; omega)
  rw [hread]
  simp only [Prod.mk.injEq]
  refine ⟨by omega, by omega, ?_, ?_⟩
  · rw [writeBytes_append_len mem d (64 * (len1 / 64)) _ _ (by omega) hP4len]
  · rw [← Function.iterate_add_apply]
    have hi : (len1 % 64) / 16 + 4 * (len1 / 64) = len1 / 16 := by omega
    rw [hi]

/-- The ciphertext-stealing tail over memory equals one store of the
pure `ctsStep` output.  No overlap condition is needed: both source
reads happen before either destination store. -/
theorem ctsM_spec (enc : Bool) (keys : Nat → Block) (klen : Nat)
    (s d r : Nat) (mem : List Nat) (t : Nat)
    (hr2 : r ≤ 15) (hL : d + r + 16 ≤ mem.length) :
    ctsM enc keys klen s d r mem t =
      writeBytes mem d (ctsStep enc keys klen (readBytes mem s (16 + r)) r t) := by
  unfold ctsM ctsStep
  dsimp only
  have hts : (readBytes mem s (16 + r)).take 16 = readBytes mem s 16 := by
    unfold readBytes
    rw [List.take_take]
    have hm : min 16 (16 + r) = 16 := by omega
    rw [hm]
  have htd : ((readBytes mem s (16 + r)).drop r).take 16 = readBytes mem (s + r) 16 := by
    unfold readBytes
    rw [List.drop_take, List.drop_drop, List.take_take]
    have hm : min 16 (16 + r - r) = 16 := by omega
    rw [hm]
  rw [hts, htd]
  exact write_write_overlap mem d r _ _ (storeBlock_length _) (storeBlock_length _)
    (by omega) hL

/-- The driver emits exactly as many bytes as it consumes. -/
theorem aesXtsCrypt_length (enc : Bool) (ctx : AesCtx) (src : List Nat) (t : Nat)
    (h : 16 ≤ src.length) : (aesXtsCrypt enc ctx src t).1.length = src.length := by
  rw [aesXtsCrypt_canon]
  unfold aesXtsCanon
  dsimp only
  by_cases hr : src.length % 16 = 0
  · have hc : ¬ (src.length % 16 ≠ 0) := by omega
    rw [if_neg hc]
    obtain ⟨hT, hM, hD, hL⟩ := blockLoop_spec enc (if enc then ctx.key_enc else ctx.key_dec)
      ctx.key_length src.length src t
    rw [hM, if_neg hc]
    dsimp only
    rw [hL]
    omega
  · rw [if_pos hr]
    obtain ⟨hT, hM, hD, hL⟩ := blockLoop_spec enc (if enc then ctx.key_enc else ctx.key_dec)
      ctx.key_length (src.length - 16) src t
    rw [hM, if_pos (by omega : (src.length - 16) % 16 ≠ 0)]
    dsimp only
    rw [List.length_append, hL, ctsStep_length _ _ _ _ _ _ (by omega)]
    omega

theorem blockLoopIter_length (enc : Bool) (keys : Nat → Block) (klen : Nat) :
    ∀ (n : Nat) (src : List Nat) (len t : Nat),
      (blockLoopIter enc keys klen n src len t).1.length = 16 * n := by
  intro n
  induction n with
  | zero => intro src len t; rfl
  | succ n ih =>
    intro src len t
    simp only [blockLoopIter]
    rw [List.length_append, cryptBlockBytes_length, ih]
    omega

/-- Shape of the pure driver output on a block-aligned read. -/
theorem aesXtsCrypt_shape_aligned (enc : Bool) (ctx : AesCtx) (mem : List Nat)
    (s len t : Nat) (hsL : s + len ≤ mem.length) (hr : len % 16 = 0) :
    (aesXtsCrypt enc ctx (readBytes mem s len) t).1 =
      (mainLoopIter enc (if enc then ctx.key_enc else ctx.key_dec) ctx.key_length
        (len / 64) (readBytes mem s (64 * (len / 64))) (64 * (len / 64)) t).1 ++
      (blockLoopIter enc (if enc then ctx.key_enc else ctx.key_dec) ctx.key_length
        ((len % 64) / 16) (readBytes mem (s + 64 * (len / 64)) (16 * ((len % 64) / 16)))
        (16 * ((len % 64) / 16)) (nextTweak^[4 * (len / 64)] t)).1 := by
  have hsrc0len : (readBytes mem s len).length = len := readBytes_length _ _ _ hsL
  unfold aesXtsCrypt
  dsimp only
  rw [hsrc0len]
  have hc : ¬ (len % 16 ≠ 0) := by omega
  simp only [if_neg hc]
  unfold mainLoop
  obtain ⟨hmT, hmL, hmD, hmLen⟩ := mainLoopIter_state enc
    (if enc then ctx.key_enc else ctx.key_dec) ctx.key_length (len / 64)
    (readBytes mem s len) len t
  rw [hmD, hmL, hmT]
  obtain ⟨hbT, hbM, hbD, hbLen⟩ := blockLoop_spec enc
    (if enc then ctx.key_enc else ctx.key_dec) ctx.key_length (len - 64 * (len / 64))
    ((readBytes mem s len).drop (64 * (len / 64))) (nextTweak^[4 * (len / 64)] t)
  rw [hbM, if_neg (by omega : ¬ (len - 64 * (len / 64)) % 16 ≠ 0)]
  dsimp only
  congr 1
  · have htk : (readBytes mem s len).take (64 * (len / 64)) =
        readBytes mem s (64 * (len / 64)) := by
      unfold readBytes
      rw [List.take_take]
      have hm : min (64 * (len / 64)) len = 64 * (len / 64) := by omega
      rw [hm]
    have hx := mainLoopIter_take enc (if enc then ctx.key_enc else ctx.key_dec)
      ctx.key_length (len / 64) (readBytes mem s len) len (64 * (len / 64)) t
    rw [htk] at hx
    exact hx.symm
  · unfold blockLoop
    have hcount : (len - 64 * (len / 64)) / 16 = (len % 64) / 16 := by omega
    rw [hcount]
    have hdk : ((readBytes mem s len).drop (64 * (len / 64))).take
        (16 * ((len % 64) / 16)) =
        readBytes mem (s + 64 * (len / 64)) (16 * ((len % 64) / 16)) := by
      unfold readBytes
      rw [List.drop_take, List.drop_drop, List.take_take]
      have hm : min (16 * ((len % 64) / 16)) (len - 64 * (len / 64)) =
          16 * ((len % 64) / 16) := by omega
      rw [hm]
    have hx := blockLoopIter_take enc (if enc then ctx.key_enc else ctx.key_dec)
      ctx.key_length ((len % 64) / 16) ((readBytes mem s len).drop (64 * (len / 64)))
      (len - 64 * (len / 64)) (16 * ((len % 64) / 16)) (nextTweak^[4 * (len / 64)] t)
    rw [hdk] at hx
    exact hx.symm

/-- Shape of the pure driver output on a read that needs ciphertext
stealing. -/
theorem aesXtsCrypt_shape_cts (enc : Bool) (ctx : AesCtx) (mem : List Nat)
    (s len t : Nat) (hsL : s + len ≤ mem.length) (hr : len % 16 ≠ 0)
    (hlen : 16 ≤ len) :
    (aesXtsCrypt enc ctx (readBytes mem s len) t).1 =
      (mainLoopIter enc (if enc then ctx.key_enc else ctx.key_dec) ctx.key_length
        ((len - 16) / 64) (readBytes mem s (64 * ((len - 16) / 64)))
        (64 * ((len - 16) / 64)) t).1 ++
      ((blockLoopIter enc (if enc then ctx.key_enc else ctx.key_dec) ctx.key_length
        (((len - 16) % 64) / 16)
        (readBytes mem (s + 64 * ((len - 16) / 64)) (16 * (((len - 16) % 64) / 16)))
        (16 * (((len - 16) % 64) / 16)) (nextTweak^[4 * ((len - 16) / 64)] t)).1 ++
      ctsStep enc (if enc then ctx.key_enc else ctx.key_dec) ctx.key_length
        (readBytes mem (s + 16 * ((len - 16) / 16)) (16 + len % 16)) (len % 16)
        (nextTweak^[(len - 16) / 16] t)) := by
  have hsrc0len : (readBytes mem s len).length = len := readBytes_length _ _ _ hsL
  unfold aesXtsCrypt
  dsimp only
  rw [hsrc0len]
  simp only [if_pos hr]
  unfold mainLoop
  obtain ⟨hmT, hmL, hmD, hmLen⟩ := mainLoopIter_state enc
    (if enc then ctx.key_enc else ctx.key_dec) ctx.key_length ((len - 16) / 64)
    (readBytes mem s len) (len - 16) t
  rw [hmD, hmL, hmT]
  obtain ⟨hbT, hbM, hbD, hbLen⟩ := blockLoop_spec enc
    (if enc then ctx.key_enc else ctx.key_dec) ctx.key_length
    ((len - 16) - 64 * ((len - 16) / 64))
    ((readBytes mem s len).drop (64 * ((len - 16) / 64)))
    (nextTweak^[4 * ((len - 16) / 64)] t)
  rw [hbM, hbD, hbT,
    if_pos (by omega : ((len - 16) - 64 * ((len - 16) / 64)) % 16 ≠ 0)]
  dsimp only
  have hrarg : ((len - 16) - 64 * ((len - 16) / 64)) % 16 = len % 16 := by omega
  rw [hrarg]
  have hsplit : ((readBytes mem s len).drop (64 * ((len - 16) / 64))).drop
      (16 * ((((len - 16) - 64 * ((len - 16) / 64))) / 16)) =
      readBytes mem (s + 16 * ((len - 16) / 16)) (16 + len % 16) := by
    unfold readBytes
    rw [List.drop_take, List.drop_drop, List.drop_take, List.drop_drop]
    have h1 : s + 64 * ((len - 16) / 64) +
        16 * (((len - 16) - 64 * ((len - 16) / 64)) / 16) =
        s + 16 * ((len - 16) / 16) := by omega
    have h2 : len - 64 * ((len - 16) / 64) -
        16 * (((len - 16) - 64 * ((len - 16) / 64)) / 16) = 16 + len % 16 := by omega
    rw [h1, h2]
  rw [hsplit, ← Function.iterate_add_apply]
  have htw : ((len - 16) - 64 * ((len - 16) / 64)) / 16 + 4 * ((len - 16) / 64) =
      (len - 16) / 16 := by omega
  rw [htw]
  congr 1
  · have htk : (readBytes mem s len).take (64 * ((len - 16) / 64)) =
        readBytes mem s (64 * ((len - 16) / 64)) := by
      unfold readBytes
      rw [List.take_take]
      have hm : min (64 * ((len - 16) / 64)) len = 64 * ((len - 16) / 64) := by omega
      rw [hm]
    have hx := mainLoopIter_take enc (if enc then ctx.key_enc else ctx.key_dec)
      ctx.key_length ((len - 16) / 64) (readBytes mem s len) (len - 16)
      (64 * ((len - 16) / 64)) t
    rw [htk] at hx
    exact hx.symm
  · congr 1
    unfold blockLoop
    have hcount : ((len - 16) - 64 * ((len - 16) / 64)) / 16 = ((len - 16) % 64) / 16 := by
      omega
    rw [hcount]
    have hdk : ((readBytes mem s len).drop (64 * ((len - 16) / 64))).take
        (16 * (((len - 16) % 64) / 16)) =
        readBytes mem (s + 64 * ((len - 16) / 64)) (16 * (((len - 16) % 64) / 16)) := by
      unfold readBytes
      rw [List.drop_take, List.drop_drop, List.take_take]
      have hm : min (16 * (((len - 16) % 64) / 16)) (len - 64 * ((len - 16) / 64)) =
          16 * (((len - 16) % 64) / 16) := by omega
      rw [hm]
    have hx := blockLoopIter_take enc (if enc then ctx.key_enc else ctx.key_dec)
      ctx.key_length (((len - 16) % 64) / 16)
      ((readBytes mem s len).drop (64 * ((len - 16) / 64)))
      ((len - 16) - 64 * ((len - 16) / 64)) (16 * (((len - 16) % 64) / 16))
      (nextTweak^[4 * ((len - 16) / 64)] t)
    rw [hdk] at hx
    exact hx.symm

/-- The memory-operational driver equals one store of the pure driver
output at the destination, when the destination equals the source or
the regions are disjoint. -/
theorem aesXtsCryptM_eq (enc : Bool) (ctx : AesCtx) (s d len : Nat) (mem : List Nat)
    (t : Nat) (hdisj : d = s ∨ s + len ≤ d ∨ d + len ≤ s)
    (hsL : s + len ≤ mem.length) (hdL : d + len ≤ mem.length) (hlen : 16 ≤ len) :
    aesXtsCryptM enc ctx s d len mem t =
      writeBytes mem d (aesXtsCrypt enc ctx (readBytes mem s len) t).1 := by
  unfold aesXtsCryptM
  dsimp only
  by_cases hr : len % 16 = 0
  · have hc : ¬ (len % 16 ≠ 0) := by omega
    simp only [if_neg hc]
    rw [loopsM_spec enc (if enc then ctx.key_enc else ctx.key_dec) ctx.key_length
      len s d mem t hdisj hsL hdL]
    rw [aesXtsCrypt_shape_aligned enc ctx mem s len t hsL hr]
  · simp only [if_pos hr]
    rw [loopsM_spec enc (if enc then ctx.key_enc else ctx.key_dec) ctx.key_length
      (len - 16) s d mem t
      (by rcases hdisj with h | h | h
          · exact Or.inl h
          · exact Or.inr (Or.inl (by omega))
          · exact Or.inr (Or.inr (by omega)))
      (by omega) (by omega)]
    dsimp only
    have hP4len : (mainLoopIter enc (if enc then ctx.key_enc else ctx.key_dec) ctx.key_length
        ((len - 16) / 64) (readBytes mem s (64 * ((len - 16) / 64)))
        (64 * ((len - 16) / 64)) t).1.length = 64 * ((len - 16) / 64) :=
      (mainLoopIter_state enc (if enc then ctx.key_enc else ctx.key_dec)
        ctx.key_length ((len - 16) / 64) _ _ t).2.2.2
    have hPBlen : (blockLoopIter enc (if enc then ctx.key_enc else ctx.key_dec) ctx.key_length
        (((len - 16) % 64) / 16)
        (readBytes mem (s + 64 * ((len - 16) / 64)) (16 * (((len - 16) % 64) / 16)))
        (16 * (((len - 16) % 64) / 16)) (nextTweak^[4 * ((len - 16) / 64)] t)).1.length = 16 * (((len - 16) % 64) / 16) :=
      blockLoopIter_length enc (if enc then ctx.key_enc else ctx.key_dec)
        ctx.key_length (((len - 16) % 64) / 16) _ _ _
    have hPPlen : ((mainLoopIter enc (if enc then ctx.key_enc else ctx.key_dec) ctx.key_length
        ((len - 16) / 64) (readBytes mem s (64 * ((len - 16) / 64)))
        (64 * ((len - 16) / 64)) t).1 ++
        (blockLoopIter enc (if enc then ctx.key_enc else ctx.key_dec) ctx.key_length
        (((len - 16) % 64) / 16)
        (readBytes mem (s + 64 * ((len - 16) / 64)) (16 * (((len - 16) % 64) / 16)))
        (16 * (((len - 16) % 64) / 16)) (nextTweak^[4 * ((len - 16) / 64)] t)).1).length = 16 * ((len - 16) / 16) := by
      rw [List.length_append, hP4len, hPBlen]
      omega
    have hmlen2 : (writeBytes mem d ((mainLoopIter enc (if enc then ctx.key_enc else ctx.key_dec) ctx.key_length
        ((len - 16) / 64) (readBytes mem s (64 * ((len - 16) / 64)))
        (64 * ((len - 16) / 64)) t).1 ++
        (blockLoopIter enc (if enc then ctx.key_enc else ctx.key_dec) ctx.key_length
        (((len - 16) % 64) / 16)
        (readBytes mem (s + 64 * ((len - 16) / 64)) (16 * (((len - 16) % 64) / 16)))
        (16 * (((len - 16) % 64) / 16)) (nextTweak^[4 * ((len - 16) / 64)] t)).1)).length = mem.length :=
      writeBytes_length _ _ _ (by rw [hPPlen]; omega)
    rw [ctsM_spec enc (if enc then ctx.key_enc else ctx.key_dec) ctx.key_length
      (s + 16 * ((len - 16) / 16)) (d + 16 * ((len - 16) / 16)) (len % 16) _
      (nextTweak^[(len - 16) / 16] t) (by omega) (by rw [hmlen2]; omega)]
    have hread2 : readBytes (writeBytes mem d ((mainLoopIter enc (if enc then ctx.key_enc else ctx.key_dec) ctx.key_length
        ((len - 16) / 64) (readBytes mem s (64 * ((len - 16) / 64)))
        (64 * ((len - 16) / 64)) t).1 ++
        (blockLoopIter enc (if enc then ctx.key_enc else ctx.key_dec) ctx.key_length
        (((len - 16) % 64) / 16)
        (readBytes mem (s + 64 * ((len - 16) / 64)) (16 * (((len - 16) % 64) / 16)))
        (16 * (((len - 16) % 64) / 16)) (nextTweak^[4 * ((len - 16) / 64)] t)).1)) (s + 16 * ((len - 16) / 16)) (16 + len % 16) =
        readBytes mem (s + 16 * ((len - 16) / 16)) (16 + len % 16) := by
      rcases hdisj with h | h | h
      · exact readBytes_writeBytes_above _ _ _ _ _ (by omega) (by rw [hPPlen]; omega)
      · exact readBytes_writeBytes_below _ _ _ _ _ (by omega) (by omega)
      · exact readBytes_writeBytes_above _ _ _ _ _ (by omega) (by rw [hPPlen]; omega)
    rw [hread2]
    rw [writeBytes_append_len mem d (16 * ((len - 16) / 16)) _ _ (by omega) hPPlen]
    rw [aesXtsCrypt_shape_cts enc ctx mem s len t hsL hr hlen]
    rw [List.append_assoc]

/-- **C8.** In-place operation is safe: running the routine with the
destination equal to the source leaves in memory exactly one store of
the pure function of the source bytes — the same bytes a run with a
disjoint destination buffer leaves there — on both the bulk path and
the ciphertext-stealing path.  The CTS tail needs no overlap
condition at all because, as in the code, the trailing partial source
block is loaded before the aliasing destination store
(`ctsM`/`ctsM_spec`). -/
theorem inplace_eq_disjoint (enc : Bool) (ctx : AesCtx) (s d len : Nat)
    (mem : List Nat) (t : Nat) (hlen : 16 ≤ len)
    (hsL : s + len ≤ mem.length) (hdL : d + len ≤ mem.length)
    (hdisj : s + len ≤ d ∨ d + len ≤ s) :
    aesXtsCryptM enc ctx s s len mem t =
      writeBytes mem s (aesXtsCrypt enc ctx (readBytes mem s len) t).1 ∧
    readBytes (aesXtsCryptM enc ctx s s len mem t) s len =
      readBytes (aesXtsCryptM enc ctx s d len mem t) d len := by
  have h1 := aesXtsCryptM_eq enc ctx s s len mem t (Or.inl rfl) hsL hsL hlen
  have h2 := aesXtsCryptM_eq enc ctx s d len mem t (Or.inr hdisj) hsL hdL hlen
  refine ⟨h1, ?_⟩
  rw [h1, h2]
  have hout : (aesXtsCrypt enc ctx (readBytes mem s len) t).1.length = len := by
    rw [aesXtsCrypt_length enc ctx _ t (by rw [readBytes_length _ _ _ hsL]; omega)]
    exact readBytes_length _ _ _ hsL
  have hs := readBytes_writeBytes_self mem s
    (aesXtsCrypt enc ctx (readBytes mem s len) t).1 (by rw [hout]; omega)
  have hd := readBytes_writeBytes_self mem d
    (aesXtsCrypt enc ctx (readBytes mem s len) t).1 (by rw [hout]; omega)
  rw [hout] at hs hd
  rw [hs, hd]

/-- Witness for C8: a 17-byte (CTS-path) unit inside 40 bytes of
memory, in place at offset 0 versus a disjoint destination at 20. -/
theorem inplace_eq_disjoint_witness :
    ((16 : Nat) ≤ 17 ∧ 0 + 17 ≤ (List.range 40).length ∧
      20 + 17 ≤ (List.range 40).length ∧ (0 + 17 ≤ 20 ∨ 20 + 17 ≤ (0 : Nat))) ∧
    (aesXtsCryptM true zeroCtx 0 0 17 (List.range 40) 1 =
      writeBytes (List.range 40) 0
        (aesXtsCrypt true zeroCtx (readBytes (List.range 40) 0 17) 1).1 ∧
     readBytes (aesXtsCryptM true zeroCtx 0 0 17 (List.range 40) 1) 0 17 =
      readBytes (aesXtsCryptM true zeroCtx 0 20 17 (List.range 40) 1) 20 17) :=
  ⟨⟨by decide, by decide, by decide, Or.inl (by decide)⟩,
   inplace_eq_disjoint true zeroCtx 0 20 17 (List.range 40) 1 (by decide)
     (by decide) (by decide) (Or.inl (by decide))⟩

end AesXts
